import Mathlib

/-!
# Verification of the nested-transaction coordinator of `mini_transaction`

Shallow embedding of the Go sources:

* `transaction/context.go` (`transContext`: the transaction-scope tree with
  parent back-references, the commit/rollback callback registries at the root,
  and the cascade fired by `End` on the root);
* `transaction/manager.go` (`manager`: `InTransaction`, `Transaction`,
  `EscapeTransaction`, `OnCommitted`, `OnRollbacked`, context threading);
* `db/provider.go` (the gorm resource provider's `transaction` function:
  nested calls reuse the handle, only the outermost call opens a physical
  transaction).

Modelling choices:

* Go pointers to `transContext` become indices into `State.nodes`; the `nil`
  pointer becomes `none : Option Nat`.  Nodes are only ever appended
  (`Start`), so a child's `parent` index is always strictly smaller than the
  child's own index; parent-chain walks are therefore written with an explicit
  fuel argument (`i + 1` is always enough fuel for a walk starting at node
  `i`), keeping every definition computable by the kernel.  The fuel-zero
  result of each walk is the walk's absent-parent base value.
* Go `error` becomes `Option Err` (`none` = `nil`); a panic payload is either
  an error or a non-error value (`Payload.pstr`), and the manager's
  `fmt.Errorf("panic: %v", e)` wrapping becomes `Err.wrapped`.
* Registered closures become data: a commit registration stores the node ids
  whose `isCommitted` the nested wrappers check; a rollback registration
  stores the single node whose `isRollbacked` the (root-built) wrapper checks.
  Firing a callback is recorded as an `Event` rather than run as code.
* A `context.Context` is reduced to the value stored under the manager's key
  for the single resource under consideration (`Ctx := Option Nat`);
  a failed type assertion on a stored `nil` and an absent key both yield the
  Go `nil` `*transContext`, i.e. `none`.
* User callbacks passed to `Transaction` are modelled by the small program
  type `Prog` (return, panic, register callbacks, nested `Transaction`,
  query `InTransaction`, retain the current context), and the manager's
  `Transaction` is the interpreter `runProg`/`Transaction` over it.  Physical
  transaction begins requested from gorm are counted in `State.begun`;
  a begin failure is modelled by the provider parameter `Mgr.beginFail`.
-/

namespace MiniTx

/- Node ids (indices of `transContext` nodes in the state's node store) and
user-callback ids are plain `Nat`. -/

/-- A Go `error` value.  `wrapped s` is the error the manager builds from a
non-error panic payload via `fmt.Errorf("panic: %v", e)`. -/
inductive Err where
  | mk : Nat → Err
  | wrapped : String → Err
deriving DecidableEq, Repr

/-- A Go panic payload: either already an `error`, or some non-error value
(modelled by its string rendering). -/
inductive Payload where
  | perr : Err → Payload
  | pstr : String → Payload
deriving DecidableEq, Repr

/-- The manager's conversion of a recovered panic payload to an error
(`err, ok := e.(error); if !ok { err = fmt.Errorf("panic: %v", e) }`). -/
def convertPayload : Payload → Err
  | .perr e => e
  | .pstr s => .wrapped s

/-- Observable firing of a registered user callback. -/
inductive Event where
  | committed : Nat → Event
  | rollbacked : Nat → Err → Event
deriving DecidableEq, Repr

/-- A commit registration as stored at the root: the nested wrappers built by
`transContext.OnCommitted` check `isCommitted()` of each node in `guards`
before invoking user callback `user`. -/
structure CommitCB where
  guards : List Nat
  user : Nat
deriving DecidableEq, Repr

/-- A rollback registration as stored at the root: the wrapper built by
`transContext.OnRollbacked` at the node where the append happens checks that
node's `isRollbacked()` and passes the resulting error to `user`. -/
structure RollbackCB where
  node : Nat
  user : Nat
deriving DecidableEq, Repr

/-- One `transContext` (transaction/context.go). -/
structure Node where
  parent : Option Nat
  db : Nat
  done : Bool
  panicked : Bool
  err : Option Err
  onCommittedCallbacks : List CommitCB
  onRollbackedCallbacks : List RollbackCB
deriving DecidableEq, Repr

/-- The mutable store of all allocated `transContext` nodes, plus the count of
physical transaction begins requested from the provider (observation of calls
to gorm's `db.Transaction`). -/
structure State where
  nodes : List Node
  begun : Nat
deriving DecidableEq, Repr

/-- The value found under the manager's context key: `none` is the Go `nil`
`*transContext` (absent key, or a stored `nil`). -/
abbrev Ctx := Option Nat

def State.node? (s : State) (i : Nat) : Option Node :=
  s.nodes.get? i

def State.setNode (s : State) (i : Nat) (n : Node) : State :=
  { s with nodes := s.nodes.set i n }

/-- Update node `i` in place (no-op when `i` is not allocated, which never
happens for states built by the API). -/
def State.upd (s : State) (i : Nat) (f : Node → Node) : State :=
  match s.node? i with
  | none => s
  | some n => s.setNode i (f n)

/-- `t.db` for a possibly missing node. -/
def nodeDb (s : State) (i : Nat) : Nat :=
  match s.node? i with
  | some n => n.db
  | none => 0

def doneOf (s : State) (i : Nat) : Bool :=
  match s.node? i with
  | some n => n.done
  | none => false

def commitCBs (s : State) (i : Nat) : List CommitCB :=
  match s.node? i with
  | some n => n.onCommittedCallbacks
  | none => []

def rollbackCBs (s : State) (i : Nat) : List RollbackCB :=
  match s.node? i with
  | some n => n.onRollbackedCallbacks
  | none => []

/-! ## Parent-chain walks (transaction/context.go)

Each walk recurses from a node to its parent.  Parents always have strictly
smaller ids than their children (nodes are appended by `Start`), so fuel
`i + 1` always suffices for a walk starting at `i`; the fuel-zero value is the
absent-parent base value of the corresponding Go function. -/

/-- `transContext.InTransaction` for a non-nil receiver:
walk to the root and return `!root.done`. -/
def inTransFuel (s : State) : Nat → Nat → Bool
  | 0, _ => false
  | fuel + 1, i =>
    match s.node? i with
    | none => false
    | some n =>
      match n.parent with
      | none => !n.done
      | some p => inTransFuel s fuel p

/-- `transContext.InTransaction` (nil receiver returns `false`). -/
def tcInTransaction (s : State) : Option Nat → Bool
  | none => false
  | some i => inTransFuel s (i + 1) i

/-- `transContext.isCommitted` for a non-nil receiver: `false` as soon as a
node on the chain is `panicked` or carries an error, `true` at the absent
parent. -/
def isCommittedFuel (s : State) : Nat → Nat → Bool
  | 0, _ => true
  | fuel + 1, i =>
    match s.node? i with
    | none => true
    | some n =>
      if n.panicked || n.err.isSome then false
      else
        match n.parent with
        | none => true
        | some p => isCommittedFuel s fuel p

/-- `transContext.isRollbacked` for a non-nil receiver: the first non-`nil`
`err` walking toward the root, `none` at the absent parent. -/
def isRollbackedFuel (s : State) : Nat → Nat → Option Err
  | 0, _ => none
  | fuel + 1, i =>
    match s.node? i with
    | none => none
    | some n =>
      match n.err with
      | some e => some e
      | none =>
        match n.parent with
        | none => none
        | some p => isRollbackedFuel s fuel p

/-- Index of the root of the chain containing node `i` (the node reached by
following `parent` until it is absent). -/
def rootIdxFuel (s : State) : Nat → Nat → Nat
  | 0, i => i
  | fuel + 1, i =>
    match s.node? i with
    | none => i
    | some n =>
      match n.parent with
      | none => i
      | some p => rootIdxFuel s fuel p

def rootIdx (s : State) (i : Nat) : Nat :=
  rootIdxFuel s (i + 1) i

/-- `transContext.Start`: allocate a child of `t` (`none` = nil receiver,
giving a root) with the supplied handle and the pessimistic
`panicked = true` default.  Returns the new state and the new node's id. -/
def tcStart (s : State) (t : Option Nat) (db : Nat) : State × Nat :=
  ({ s with
      nodes := s.nodes ++
        [{ parent := t, db := db, done := false, panicked := true,
           err := none, onCommittedCallbacks := [],
           onRollbackedCallbacks := [] }] },
   s.nodes.length)

/-- `transContext.OnCommitted`: wrap the callback with an `isCommitted()`
check of the current node, append the wrapper at the root, recursing through
parents (each level adding its own check). -/
def onCommittedFuel (s : State) : Nat → Nat → CommitCB → State
  | 0, _, _ => s
  | fuel + 1, i, cb =>
    let cbf : CommitCB := { cb with guards := i :: cb.guards }
    match s.node? i with
    | none => s
    | some n =>
      match n.parent with
      | none =>
        s.setNode i { n with onCommittedCallbacks := n.onCommittedCallbacks ++ [cbf] }
      | some p => onCommittedFuel s fuel p cbf

/-- `transContext.OnRollbacked`: the wrapper (closing over the node where the
append happens and checking its `isRollbacked()`) is built at each level, but
the recursion forwards the *raw* callback — only the wrapper built at the
root is stored, so the stored entry's `node` is the root. -/
def onRollbackedFuel (s : State) : Nat → Nat → Nat → State
  | 0, _, _ => s
  | fuel + 1, i, u =>
    match s.node? i with
    | none => s
    | some n =>
      match n.parent with
      | none =>
        s.setNode i { n with onRollbackedCallbacks := n.onRollbackedCallbacks ++ [⟨i, u⟩] }
      | some p => onRollbackedFuel s fuel p u

/-- Fire one stored commit wrapper: the user callback runs iff every node on
the wrapper chain reports `isCommitted()` at fire time. -/
def runCommitCB (s : State) (cb : CommitCB) : List Event :=
  if cb.guards.all (fun g => isCommittedFuel s (g + 1) g) then
    [.committed cb.user]
  else []

/-- Fire one stored rollback wrapper: the user callback runs with the error
returned by `isRollbacked()` of the wrapper's node at fire time, iff that
error is non-nil. -/
def runRollbackCB (s : State) (cb : RollbackCB) : List Event :=
  match isRollbackedFuel s (cb.node + 1) cb.node with
  | some e => [.rollbacked cb.user e]
  | none => []

/-- `transContext.End`: record `panicked` and `err`; a non-root node stops
there, the root then fires the commit cascade followed by the rollback
cascade (snapshot of the registries, wrappers evaluated against the updated
state).  Nil receiver (`none`) is a no-op.  Returns the new state and the
fired events. -/
def tcEnd (s : State) (t : Option Nat) (panicked : Bool) (err : Option Err) :
    State × List Event :=
  match t with
  | none => (s, [])
  | some i =>
    match s.node? i with
    | none => (s, [])
    | some n =>
      let n' := { n with panicked := panicked, err := err }
      let s' := s.setNode i n'
      match n.parent with
      | some _ => (s', [])
      | none =>
        (s', (n'.onCommittedCallbacks.map (runCommitCB s')).flatten ++
             (n'.onRollbackedCallbacks.map (runRollbackCB s')).flatten)

/-- The `transCtx.done = true` assignment performed by `Transaction`'s
deferred function. -/
def setDoneNode (s : State) (i : Nat) : State :=
  s.upd i (fun n => { n with done := true })

/-! ## The manager (transaction/manager.go) and the gorm provider
(db/provider.go), specialised to one resource key. -/

/-- The provider-supplied pieces the manager is constructed from:
`lookupDB` (`none` = Go `nil`, i.e. no resource routed for this context) and
the outcome of a physical transaction begin (`beginFail = some e` models
gorm's `db.Transaction` failing to begin and returning `e` without invoking
the inner function). -/
structure Mgr where
  lookup : Ctx → Option Nat
  beginFail : Option Err

/-- `manager.findTransContext`: the value stored under the manager's key,
`none` when absent or when the type assertion fails on a stored `nil`. -/
def findTransContext (ctx : Ctx) : Option Nat := ctx

/-- `manager.InTransaction`. -/
def mInTransaction (s : State) (ctx : Ctx) : Bool :=
  tcInTransaction s (findTransContext ctx)

/-- `manager.cleanTransContext`: strip the transaction marker (store `nil`)
only when the context is inside an active transaction. -/
def cleanTransContext (s : State) (ctx : Ctx) : Ctx :=
  if tcInTransaction s (findTransContext ctx) then none else ctx

/-- `manager.EscapeTransaction`: invoke the callback with the cleaned
context. -/
def mEscapeTransaction (s : State) (ctx : Ctx) (callback : Ctx → Option Err) :
    Option Err :=
  callback (cleanTransContext s ctx)

/-- `manager.OnCommitted`: fail (`false`) unless the ambient node is active;
otherwise register the user callback (wrapped to get a cleaned context at
fire time) through `transContext.OnCommitted`.  The Go code checks
`!transCtx.InTransaction()` first; since `InTransaction` of a nil node is
`false`, matching on the node first is equivalent. -/
def mOnCommitted (s : State) (ctx : Ctx) (u : Nat) : State × Bool :=
  match findTransContext ctx with
  | none => (s, false)
  | some i =>
    if tcInTransaction s (some i) then
      (onCommittedFuel s (i + 1) i ⟨[], u⟩, true)
    else (s, false)

/-- `manager.OnRollbacked`: fail (`false`) only when the ambient node is
absent (`nil`); otherwise register through `transContext.OnRollbacked`,
active or not. -/
def mOnRollbacked (s : State) (ctx : Ctx) (u : Nat) : State × Bool :=
  match findTransContext ctx with
  | none => (s, false)
  | some i => (onRollbackedFuel s (i + 1) i u, true)

/-- `manager.findDBAndTransContext`: reuse the active ambient node and its
handle; otherwise look up the non-transactional handle, panicking
(`.error`) with `"matching database not found"` when none is routed. -/
def findDBAndTransContext (m : Mgr) (s : State) (ctx : Ctx) :
    Except Payload (Option Nat × Nat) :=
  match findTransContext ctx with
  | some i =>
    if tcInTransaction s (some i) then .ok (some i, nodeDb s i)
    else
      match m.lookup ctx with
      | none => .error (.pstr "matching database not found")
      | some db => .ok (none, db)
  | none =>
    match m.lookup ctx with
    | none => .error (.pstr "matching database not found")
    | some db => .ok (none, db)

/-- Result of the part of `manager.Transaction` that runs before the user
callback, combined with the gorm provider's `transaction` function:

* `fatal`: `findDBAndTransContext` panicked (no routed resource);
* `beginErr`: the physical begin failed, `m.transaction` returns the error
  without invoking the inner callback (`begun` was still incremented);
* `frame`: the inner callback was entered: `Start` allocated the child node
  and the ambient channel was rebound to it.  In the nested branch the
  provider passes the existing handle straight through; in the root branch
  gorm supplies the physical transaction's handle (modelled as `db + 1`). -/
inductive EnterRes where
  | fatal : Payload → EnterRes
  | beginErr : State → Err → EnterRes
  | frame : State → Nat → EnterRes

def enterTrans (m : Mgr) (s : State) (ctx : Ctx) : EnterRes :=
  match findDBAndTransContext m s ctx with
  | .error p => .fatal p
  | .ok (prevTc, db) =>
    if mInTransaction s ctx then
      -- db/provider.go `transaction`, nested branch: invoke the callback
      -- directly with the same handle, no physical begin.
      let (s1, i) := tcStart s prevTc db
      .frame s1 i
    else
      -- root branch: request a physical begin from gorm.
      let s0 := { s with begun := s.begun + 1 }
      match m.beginFail with
      | some e => .beginErr s0 e
      | none =>
        let (s1, i) := tcStart s0 prevTc (db + 1)
        .frame s1 i

/-- The user-callback programs the interpreter runs inside `Transaction`:
return an error, panic, register callbacks, make a nested `Transaction` call
(the continuation receives its error), query `manager.InTransaction`
(recorded in `probes`), or retain the current context beyond the call
(recorded in `leaked`). -/
inductive Prog where
  | ret : Option Err → Prog
  | panicp : Payload → Prog
  | onCommitted : Nat → Prog → Prog
  | onRollbacked : Nat → Prog → Prog
  | trans : Prog → (Option Err → Prog) → Prog
  | inTransQ : Prog → Prog
  | leak : Prog → Prog

/-- How a callback finished: normal return with an error value, or a panic. -/
inductive Outcome where
  | ok : Option Err → Outcome
  | panicked : Payload → Outcome
deriving DecidableEq, Repr

/-- Result of running a program: final state, events fired by cascades,
recorded `InTransaction` query results, retained contexts, and the outcome. -/
structure RunRes where
  st : State
  events : List Event
  probes : List Bool
  leaked : List Ctx
  outcome : Outcome
deriving DecidableEq, Repr

/-- The tail of `manager.Transaction` once the frame for node `i` exists:
on normal return of the callback, `transCtx.End(false, err)` runs (cascading
at the root), then the deferred function sets `done` and, with no panic to
recover, returns `err`.  On a panic, the deferred function sets `done`,
then — only if this node's rollback registry is non-empty — recovers,
converts the payload to an error, runs `End(true, err)`, and re-raises the
original panic. -/
def finishFrame (r : RunRes) (i : Nat) : RunRes :=
  match r.outcome with
  | .ok err =>
    let (s2, ev) := tcEnd r.st (some i) false err
    { r with st := setDoneNode s2 i, events := r.events ++ ev }
  | .panicked p =>
    let s2 := setDoneNode r.st i
    if (rollbackCBs s2 i).isEmpty then
      { r with st := s2 }
    else
      let (s3, ev) := tcEnd s2 (some i) true (some (convertPayload p))
      { r with st := s3, events := r.events ++ ev }

/-- Run a user-callback program with ambient context `ctx`.  The `.trans`
case is `manager.Transaction` inlined (see `Transaction` below for the
standalone form): enter the frame, run the body with the rebound context,
finish the frame; a panic skips the continuation, a normal return feeds its
error to the continuation, and a begin failure feeds the provider's error to
the continuation without ever creating a node. -/
def runProg (m : Mgr) (s : State) (ctx : Ctx) : Prog → RunRes
  | .ret e => ⟨s, [], [], [], .ok e⟩
  | .panicp p => ⟨s, [], [], [], .panicked p⟩
  | .onCommitted u k =>
    let s' := (mOnCommitted s ctx u).1
    runProg m s' ctx k
  | .onRollbacked u k =>
    let s' := (mOnRollbacked s ctx u).1
    runProg m s' ctx k
  | .inTransQ k =>
    let b := mInTransaction s ctx
    let r := runProg m s ctx k
    { r with probes := b :: r.probes }
  | .leak k =>
    let r := runProg m s ctx k
    { r with leaked := ctx :: r.leaked }
  | .trans body k =>
    match enterTrans m s ctx with
    | .fatal p => ⟨s, [], [], [], .panicked p⟩
    | .beginErr s0 e => runProg m s0 ctx (k (some e))
    | .frame s1 i =>
      let tr := finishFrame (runProg m s1 (some i) body) i
      match tr.outcome with
      | .panicked _ => tr
      | .ok e =>
        let r := runProg m tr.st ctx (k e)
        ⟨r.st, tr.events ++ r.events, tr.probes ++ r.probes,
         tr.leaked ++ r.leaked, r.outcome⟩

/-- `manager.Transaction`: the standalone form of the `.trans` case of
`runProg`. -/
def mTransaction (m : Mgr) (s : State) (ctx : Ctx) (body : Prog) : RunRes :=
  match enterTrans m s ctx with
  | .fatal p => ⟨s, [], [], [], .panicked p⟩
  | .beginErr s0 e => ⟨s0, [], [], [], .ok (some e)⟩
  | .frame s1 i => finishFrame (runProg m s1 (some i) body) i

/-! ## Well-formedness and basic state lemmas

Nodes are only ever appended, with the parent an already-allocated node, so a
parent's id is always strictly smaller than its child's.  `WF` records this;
every state reachable through the API satisfies it. -/

/-- Parent ids strictly decrease along the tree. -/
def WF (s : State) : Prop :=
  ∀ i n p, s.node? i = some n → n.parent = some p → p < i

/-- The fields of node `i` read by the parent-chain walks. -/
def shadow (s : State) (i : Nat) :
    Option (Option Nat × Bool × Bool × Option Err) :=
  (s.node? i).map fun n => (n.parent, n.done, n.panicked, n.err)

/-- Just the parent pointer of node `i`. -/
def pshadow (s : State) (i : Nat) : Option (Option Nat) :=
  (s.node? i).map fun n => n.parent

theorem node?_setNode_self (s : State) (i : Nat) (n : Node)
    (h : i < s.nodes.length) : (s.setNode i n).node? i = some n :=
  List.get?_set_eq_of_lt n h

theorem node?_setNode_ne (s : State) (i j : Nat) (n : Node)
    (h : j ≠ i) : (s.setNode i n).node? j = s.node? j :=
  List.get?_set_ne n s.nodes (Ne.symm h)

theorem node?_lt (s : State) (j : Nat) (h : j < s.nodes.length) :
    ∃ n, s.node? j = some n :=
  ⟨s.nodes.get ⟨j, h⟩, List.get?_eq_get h⟩

theorem node?_of_ge (s : State) (j : Nat) (h : s.nodes.length ≤ j) :
    s.node? j = none :=
  List.get?_eq_none.mpr h

theorem len_setNode (s : State) (i : Nat) (n : Node) :
    (s.setNode i n).nodes.length = s.nodes.length :=
  List.length_set s.nodes i n

theorem node?_tcStart_lt (s : State) (t : Option Nat) (db : Nat)
    (j : Nat) (h : j < s.nodes.length) :
    (tcStart s t db).1.node? j = s.node? j :=
  List.get?_append h

theorem node?_tcStart_new (s : State) (t : Option Nat) (db : Nat) :
    (tcStart s t db).1.node? s.nodes.length =
      some { parent := t, db := db, done := false, panicked := true,
             err := none, onCommittedCallbacks := [],
             onRollbackedCallbacks := [] } :=
  List.get?_concat_length _ _

theorem len_tcStart (s : State) (t : Option Nat) (db : Nat) :
    (tcStart s t db).1.nodes.length = s.nodes.length + 1 := by
  show (s.nodes ++ [_]).length = s.nodes.length + 1
  simp

theorem WF_setNode (s : State) (i : Nat) (n n' : Node)
    (hs : s.node? i = some n) (hp : n'.parent = n.parent)
    (hwf : WF s) : WF (s.setNode i n') := by
  intro j m p h1 h2
  by_cases hj : j = i
  · subst hj
    have hlen : j < s.nodes.length := by
      by_contra hge
      rw [node?_of_ge s j (Nat.le_of_not_lt hge)] at hs
      exact Option.noConfusion hs
    rw [node?_setNode_self s j n' hlen] at h1
    injection h1 with h1
    subst h1
    exact hwf j n p hs (hp ▸ h2)
  · rw [node?_setNode_ne s i j n' hj] at h1
    exact hwf j m p h1 h2

theorem WF_tcStart (s : State) (t : Option Nat) (db : Nat)
    (ht : ∀ p, t = some p → p < s.nodes.length) (hwf : WF s) :
    WF (tcStart s t db).1 := by
  intro j m p h1 h2
  by_cases hj : j < s.nodes.length
  · rw [node?_tcStart_lt s t db j hj] at h1
    exact hwf j m p h1 h2
  · have hlen : j < (tcStart s t db).1.nodes.length := by
      by_contra hge
      rw [node?_of_ge _ j (Nat.le_of_not_lt hge)] at h1
      exact Option.noConfusion h1
    rw [len_tcStart] at hlen
    have hj' : j = s.nodes.length :=
      Nat.le_antisymm (Nat.lt_succ_iff.mp hlen) (Nat.le_of_not_lt hj)
    subst hj'
    rw [node?_tcStart_new] at h1
    injection h1 with h1
    subst h1
    simp at h2
    subst h2
    exact ht p rfl

/-! ## Walk congruence and fuel irrelevance -/

theorem inTransFuel_congr (s s' : State) (hwf : WF s) :
    ∀ (f : Nat) (i : Nat), (∀ t, t ≤ i → shadow s' t = shadow s t) →
      inTransFuel s' f i = inTransFuel s f i := by
  intro f
  induction f with
  | zero => intro i _; rfl
  | succ f ih =>
    intro i hsh
    have hi := hsh i (Nat.le_refl i)
    cases hs : s.node? i <;> cases hs' : s'.node? i
    case none.none => simp [inTransFuel, hs, hs']
    case none.some n' => simp [shadow, hs, hs'] at hi
    case some.none n => simp [shadow, hs, hs'] at hi
    case some.some n n' =>
      simp only [shadow, hs, hs', Option.map_some', Option.some_inj,
        Prod.mk.injEq] at hi
      obtain ⟨hp, hd, -, -⟩ := hi
      cases hpar : n.parent with
      | none => simp [inTransFuel, hs, hs', hp, hd, hpar]
      | some p =>
        have hpi : p < i := hwf i n p hs hpar
        have hrec := ih p (fun t ht => hsh t (Nat.le_trans ht (Nat.le_of_lt hpi)))
        simp [inTransFuel, hs, hs', hp, hpar, hrec]

theorem rootIdxFuel_congr (s s' : State) (hwf : WF s) :
    ∀ (f : Nat) (i : Nat), (∀ t, t ≤ i → pshadow s' t = pshadow s t) →
      rootIdxFuel s' f i = rootIdxFuel s f i := by
  intro f
  induction f with
  | zero => intro i _; rfl
  | succ f ih =>
    intro i hsh
    have hi := hsh i (Nat.le_refl i)
    cases hs : s.node? i <;> cases hs' : s'.node? i
    case none.none => simp [rootIdxFuel, hs, hs']
    case none.some n' => simp [pshadow, hs, hs'] at hi
    case some.none n => simp [pshadow, hs, hs'] at hi
    case some.some n n' =>
      simp only [pshadow, hs, hs', Option.map_some', Option.some_inj] at hi
      cases hpar : n.parent with
      | none => simp [rootIdxFuel, hs, hs', hi, hpar]
      | some p =>
        have hpi : p < i := hwf i n p hs hpar
        have hrec := ih p (fun t ht => hsh t (Nat.le_trans ht (Nat.le_of_lt hpi)))
        simp [rootIdxFuel, hs, hs', hi, hpar, hrec]

theorem inTransFuel_irrel (s : State) (hwf : WF s) :
    ∀ (i : Nat) (f : Nat), i < f →
      inTransFuel s f i = inTransFuel s (i + 1) i := by
  intro i
  induction i using Nat.strong_induction_on with
  | _ i ih =>
    intro f hf
    have hsplit : f = f - 1 + 1 := by omega
    obtain ⟨f', rfl⟩ : ∃ f', f = f' + 1 := ⟨f - 1, hsplit⟩
    cases hs : s.node? i with
    | none => simp [inTransFuel, hs]
    | some n =>
      cases hpar : n.parent with
      | none => simp [inTransFuel, hs, hpar]
      | some p =>
        have hpi : p < i := hwf i n p hs hpar
        have hpf : p < f' := by omega
        have hpi1 : p < i := hpi
        have h1 := ih p hpi f' hpf
        have h2 := ih p hpi i hpi1
        simp [inTransFuel, hs, hpar, h1, h2]

theorem rootIdxFuel_irrel (s : State) (hwf : WF s) :
    ∀ (i : Nat) (f : Nat), i < f →
      rootIdxFuel s f i = rootIdx s i := by
  intro i
  induction i using Nat.strong_induction_on with
  | _ i ih =>
    intro f hf
    have hsplit : f = f - 1 + 1 := by omega
    obtain ⟨f', rfl⟩ : ∃ f', f = f' + 1 := ⟨f - 1, hsplit⟩
    rw [rootIdx]
    cases hs : s.node? i with
    | none => simp [rootIdxFuel, hs]
    | some n =>
      cases hpar : n.parent with
      | none => simp [rootIdxFuel, hs, hpar]
      | some p =>
        have hpi : p < i := hwf i n p hs hpar
        have hpf : p < f' := by omega
        have hpi1 : p < i := hpi
        have h1 := ih p hpi f' hpf
        have h2 := ih p hpi i hpi1
        rw [rootIdx] at h1 h2
        simp [rootIdxFuel, hs, hpar, h1, h2]

/-! ## Characterisation of the root and of callback registration -/

theorem rootIdx_spec (s : State) (hwf : WF s) :
    ∀ i, i < s.nodes.length →
      rootIdx s i ≤ i ∧
      ∃ n, s.node? (rootIdx s i) = some n ∧ n.parent = none := by
  intro i
  induction i using Nat.strong_induction_on with
  | _ i ih =>
    intro hi
    obtain ⟨n, hn⟩ := node?_lt s i hi
    cases hpar : n.parent with
    | none =>
      have hre : rootIdx s i = i := by simp [rootIdx, rootIdxFuel, hn, hpar]
      rw [hre]
      exact ⟨Nat.le_refl i, n, hn, hpar⟩
    | some p =>
      have hpi : p < i := hwf i n p hn hpar
      have hstep : rootIdx s i = rootIdx s p := by
        have hirr := rootIdxFuel_irrel s hwf p i hpi
        simp [rootIdx, rootIdxFuel, hn, hpar, hirr]
      rw [hstep]
      obtain ⟨hle, hex⟩ := ih p hpi (Nat.lt_trans hpi hi)
      exact ⟨Nat.le_trans hle (Nat.le_of_lt hpi), hex⟩

theorem rootIdx_lt_len (s : State) (hwf : WF s) (i : Nat)
    (hi : i < s.nodes.length) : rootIdx s i < s.nodes.length :=
  Nat.lt_of_le_of_lt (rootIdx_spec s hwf i hi).1 hi

/-- `transContext.InTransaction` of a valid node is exactly "the root is not
done". -/
theorem inTrans_eq_root_done (s : State) (hwf : WF s) :
    ∀ i, i < s.nodes.length →
      inTransFuel s (i + 1) i = !(doneOf s (rootIdx s i)) := by
  intro i
  induction i using Nat.strong_induction_on with
  | _ i ih =>
    intro hi
    obtain ⟨n, hn⟩ := node?_lt s i hi
    cases hpar : n.parent with
    | none =>
      have hr : rootIdx s i = i := by simp [rootIdx, rootIdxFuel, hn, hpar]
      simp [inTransFuel, hn, hpar, hr, doneOf]
    | some p =>
      have hpi : p < i := hwf i n p hn hpar
      have hr : rootIdx s i = rootIdx s p := by
        have hirr := rootIdxFuel_irrel s hwf p i hpi
        simp [rootIdx, rootIdxFuel, hn, hpar, hirr]
      have hirr := inTransFuel_irrel s hwf p i hpi
      have hrec := ih p hpi (Nat.lt_trans hpi hi)
      have hl : inTransFuel s (i + 1) i = inTransFuel s i p := by
        simp [inTransFuel, hn, hpar]
      rw [hl, hirr, hrec, hr]

/-- Append one commit registration to the registry of node `i`. -/
def pushCommit (s : State) (i : Nat) (n : Node) (cb : CommitCB) : State :=
  s.setNode i { n with onCommittedCallbacks := n.onCommittedCallbacks ++ [cb] }

/-- Append one rollback registration to the registry of node `i`. -/
def pushRollback (s : State) (i : Nat) (n : Node) (cb : RollbackCB) : State :=
  s.setNode i { n with onRollbackedCallbacks := n.onRollbackedCallbacks ++ [cb] }

/-- `transContext.OnCommitted` from a valid node appends, at the root of its
chain, one entry carrying the registering callback's user id (the wrapper
guards accumulate the chain's node ids). -/
theorem onCommittedFuel_spec (s : State) (hwf : WF s) :
    ∀ i, i < s.nodes.length → ∀ f, i < f → ∀ cb : CommitCB,
      ∃ gs n, s.node? (rootIdx s i) = some n ∧
        onCommittedFuel s f i cb = pushCommit s (rootIdx s i) n ⟨gs, cb.user⟩ := by
  intro i
  induction i using Nat.strong_induction_on with
  | _ i ih =>
    intro hi f hf cb
    have hsplit : f = f - 1 + 1 := by omega
    obtain ⟨f', rfl⟩ : ∃ f', f = f' + 1 := ⟨f - 1, hsplit⟩
    obtain ⟨n, hn⟩ := node?_lt s i hi
    cases hpar : n.parent with
    | none =>
      have hr : rootIdx s i = i := by simp [rootIdx, rootIdxFuel, hn, hpar]
      refine ⟨i :: cb.guards, n, by rw [hr]; exact hn, ?_⟩
      simp [onCommittedFuel, hn, hpar, pushCommit, hr]
    | some p =>
      have hpi : p < i := hwf i n p hn hpar
      have hr : rootIdx s i = rootIdx s p := by
        have hirr := rootIdxFuel_irrel s hwf p i hpi
        simp [rootIdx, rootIdxFuel, hn, hpar, hirr]
      have hpf : p < f' := by omega
      obtain ⟨gs, nr, hnr, heq⟩ :=
        ih p hpi (Nat.lt_trans hpi hi) f' hpf { cb with guards := i :: cb.guards }
      exact ⟨gs, nr, by rw [hr]; exact hnr, by simp [onCommittedFuel, hn, hpar, heq, hr]⟩

/-- `transContext.OnRollbacked` from a valid node appends, at the root `R` of
its chain, the entry `⟨R, u⟩`: the stored wrapper checks `isRollbacked()` of
the ROOT (the raw callback is forwarded on recursion, so the wrappers built
at the registering node and at intermediate ancestors are discarded). -/
theorem onRollbackedFuel_spec (s : State) (hwf : WF s) :
    ∀ i, i < s.nodes.length → ∀ f, i < f → ∀ u : Nat,
      ∃ n, s.node? (rootIdx s i) = some n ∧
        onRollbackedFuel s f i u = pushRollback s (rootIdx s i) n ⟨rootIdx s i, u⟩ := by
  intro i
  induction i using Nat.strong_induction_on with
  | _ i ih =>
    intro hi f hf u
    have hsplit : f = f - 1 + 1 := by omega
    obtain ⟨f', rfl⟩ : ∃ f', f = f' + 1 := ⟨f - 1, hsplit⟩
    obtain ⟨n, hn⟩ := node?_lt s i hi
    cases hpar : n.parent with
    | none =>
      have hr : rootIdx s i = i := by simp [rootIdx, rootIdxFuel, hn, hpar]
      refine ⟨n, by rw [hr]; exact hn, ?_⟩
      simp [onRollbackedFuel, hn, hpar, pushRollback, hr]
    | some p =>
      have hpi : p < i := hwf i n p hn hpar
      have hr : rootIdx s i = rootIdx s p := by
        have hirr := rootIdxFuel_irrel s hwf p i hpi
        simp [rootIdx, rootIdxFuel, hn, hpar, hirr]
      have hpf : p < f' := by omega
      obtain ⟨nr, hnr, heq⟩ := ih p hpi (Nat.lt_trans hpi hi) f' hpf u
      exact ⟨nr, by rw [hr]; exact hnr, by simp [onRollbackedFuel, hn, hpar, heq, hr]⟩

/-! ## States in which every node is clean -/

/-- Every allocated node has `panicked = false` and `err = none`. -/
def AllGood (s : State) : Prop :=
  ∀ i n, s.node? i = some n → n.panicked = false ∧ n.err = none

theorem isCommittedFuel_allgood (s : State) (hg : AllGood s) :
    ∀ f i, isCommittedFuel s f i = true := by
  intro f
  induction f with
  | zero => intro i; rfl
  | succ f ih =>
    intro i
    cases hn : s.node? i with
    | none => simp [isCommittedFuel, hn]
    | some n =>
      obtain ⟨hp, he⟩ := hg i n hn
      cases hpar : n.parent with
      | none => simp [isCommittedFuel, hn, hp, he, hpar]
      | some p => simp [isCommittedFuel, hn, hp, he, hpar, ih p]

theorem isRollbackedFuel_allgood (s : State) (hg : AllGood s) :
    ∀ f i, isRollbackedFuel s f i = none := by
  intro f
  induction f with
  | zero => intro i; rfl
  | succ f ih =>
    intro i
    cases hn : s.node? i with
    | none => simp [isRollbackedFuel, hn]
    | some n =>
      obtain ⟨-, he⟩ := hg i n hn
      cases hpar : n.parent with
      | none => simp [isRollbackedFuel, hn, he, hpar]
      | some p => simp [isRollbackedFuel, hn, he, hpar, ih p]

theorem runCommitCB_allgood (s : State) (hg : AllGood s) (cb : CommitCB) :
    runCommitCB s cb = [.committed cb.user] := by
  have : cb.guards.all (fun g => isCommittedFuel s (g + 1) g) = true := by
    simp only [List.all_eq_true]
    intro g _
    exact isCommittedFuel_allgood s hg (g + 1) g
  simp [runCommitCB, this]

theorem runRollbackCB_allgood (s : State) (hg : AllGood s) (cb : RollbackCB) :
    runRollbackCB s cb = [] := by
  simp [runRollbackCB, isRollbackedFuel_allgood s hg]

theorem flatten_map_singleton {α β : Type} (l : List α) (f : α → β) :
    (l.map fun x => [f x]).flatten = l.map f := by
  induction l with
  | nil => rfl
  | cons x xs ih => simp [ih]

theorem flatten_map_of_eq {α β : Type} (l : List α) (f : α → List β) (g : α → β)
    (h : ∀ x ∈ l, f x = [g x]) : (l.map f).flatten = l.map g := by
  induction l with
  | nil => rfl
  | cons x xs ih =>
    simp only [List.map_cons, List.flatten_cons, h x (List.mem_cons_self x xs)]
    rw [ih (fun y hy => h y (List.mem_cons_of_mem x hy))]
    rfl

theorem flatten_map_of_nil {α β : Type} (l : List α) (f : α → List β)
    (h : ∀ x ∈ l, f x = []) : (l.map f).flatten = [] := by
  induction l with
  | nil => rfl
  | cons x xs ih =>
    simp only [List.map_cons, List.flatten_cons, h x (List.mem_cons_self x xs)]
    rw [ih (fun y hy => h y (List.mem_cons_of_mem x hy))]
    rfl

/-! ## Per-operation state facts -/

theorem node?_some_lt (s : State) (i : Nat) (n : Node)
    (h : s.node? i = some n) : i < s.nodes.length := by
  by_contra hge
  rw [node?_of_ge s i (Nat.le_of_not_lt hge)] at h
  exact Option.noConfusion h

theorem shadow_pushCommit (s : State) (i : Nat) (n : Node) (cb : CommitCB)
    (hn : s.node? i = some n) :
    ∀ t, shadow (pushCommit s i n cb) t = shadow s t := by
  intro t
  by_cases ht : t = i
  · subst ht
    rw [shadow, shadow, hn, pushCommit,
      node?_setNode_self s t _ (node?_some_lt s t n hn)]
    rfl
  · rw [shadow, shadow, pushCommit, node?_setNode_ne s i t _ ht]

theorem shadow_pushRollback (s : State) (i : Nat) (n : Node) (cb : RollbackCB)
    (hn : s.node? i = some n) :
    ∀ t, shadow (pushRollback s i n cb) t = shadow s t := by
  intro t
  by_cases ht : t = i
  · subst ht
    rw [shadow, shadow, hn, pushRollback,
      node?_setNode_self s t _ (node?_some_lt s t n hn)]
    rfl
  · rw [shadow, shadow, pushRollback, node?_setNode_ne s i t _ ht]

theorem pshadow_setNode (s : State) (i : Nat) (n n' : Node)
    (hn : s.node? i = some n) (hp : n'.parent = n.parent) :
    ∀ t, pshadow (s.setNode i n') t = pshadow s t := by
  intro t
  by_cases ht : t = i
  · subst ht
    rw [pshadow, pshadow, hn,
      node?_setNode_self s t _ (node?_some_lt s t n hn), Option.map_some',
      Option.map_some', hp]
  · rw [pshadow, pshadow, node?_setNode_ne s i t _ ht]

theorem shadow_setNode_ne (s : State) (i : Nat) (n' : Node) :
    ∀ t, t ≠ i → shadow (s.setNode i n') t = shadow s t := by
  intro t ht
  rw [shadow, shadow, node?_setNode_ne s i t _ ht]

theorem commitCBs_pushCommit_self (s : State) (i : Nat) (n : Node)
    (cb : CommitCB) (hn : s.node? i = some n) :
    commitCBs (pushCommit s i n cb) i = commitCBs s i ++ [cb] := by
  rw [commitCBs, commitCBs, hn, pushCommit,
    node?_setNode_self s i _ (node?_some_lt s i n hn)]

theorem commitCBs_pushCommit_ne (s : State) (i : Nat) (n : Node)
    (cb : CommitCB) (t : Nat) (ht : t ≠ i) :
    commitCBs (pushCommit s i n cb) t = commitCBs s t := by
  rw [commitCBs, commitCBs, pushCommit, node?_setNode_ne s i t _ ht]

theorem commitCBs_pushRollback (s : State) (i : Nat) (n : Node)
    (cb : RollbackCB) (hn : s.node? i = some n) :
    ∀ t, commitCBs (pushRollback s i n cb) t = commitCBs s t := by
  intro t
  by_cases ht : t = i
  · subst ht
    rw [commitCBs, commitCBs, hn, pushRollback,
      node?_setNode_self s t _ (node?_some_lt s t n hn)]
  · rw [commitCBs, commitCBs, pushRollback, node?_setNode_ne s i t _ ht]

theorem rollbackCBs_pushRollback_self (s : State) (i : Nat) (n : Node)
    (cb : RollbackCB) (hn : s.node? i = some n) :
    rollbackCBs (pushRollback s i n cb) i = rollbackCBs s i ++ [cb] := by
  rw [rollbackCBs, rollbackCBs, hn, pushRollback,
    node?_setNode_self s i _ (node?_some_lt s i n hn)]

theorem rollbackCBs_pushCommit (s : State) (i : Nat) (n : Node)
    (cb : CommitCB) (hn : s.node? i = some n) :
    ∀ t, rollbackCBs (pushCommit s i n cb) t = rollbackCBs s t := by
  intro t
  by_cases ht : t = i
  · subst ht
    rw [rollbackCBs, rollbackCBs, hn, pushCommit,
      node?_setNode_self s t _ (node?_some_lt s t n hn)]
  · rw [rollbackCBs, rollbackCBs, pushCommit, node?_setNode_ne s i t _ ht]

theorem len_pushCommit (s : State) (i : Nat) (n : Node) (cb : CommitCB) :
    (pushCommit s i n cb).nodes.length = s.nodes.length :=
  len_setNode ..

theorem len_pushRollback (s : State) (i : Nat) (n : Node) (cb : RollbackCB) :
    (pushRollback s i n cb).nodes.length = s.nodes.length :=
  len_setNode ..

/-- `End` on a non-root node only records the two fields. -/
theorem tcEnd_nonroot (s : State) (i : Nat) (n : Node) (p : Nat)
    (hn : s.node? i = some n) (hpar : n.parent = some p) (pk : Bool)
    (er : Option Err) :
    tcEnd s (some i) pk er =
      (s.setNode i { n with panicked := pk, err := er }, []) := by
  simp [tcEnd, hn, hpar]

/-- `End` on a root node records the fields and fires the cascade against the
updated state. -/
theorem tcEnd_root (s : State) (i : Nat) (n : Node)
    (hn : s.node? i = some n) (hpar : n.parent = none) (pk : Bool)
    (er : Option Err) :
    tcEnd s (some i) pk er =
      (s.setNode i { n with panicked := pk, err := er },
       (n.onCommittedCallbacks.map
          (runCommitCB (s.setNode i { n with panicked := pk, err := er }))).flatten ++
       (n.onRollbackedCallbacks.map
          (runRollbackCB (s.setNode i { n with panicked := pk, err := er }))).flatten) := by
  simp [tcEnd, hn, hpar]

theorem setDoneNode_eq (s : State) (i : Nat) (n : Node)
    (hn : s.node? i = some n) :
    setDoneNode s i = s.setNode i { n with done := true } := by
  simp [setDoneNode, State.upd, hn]

/-! ## Parent pointers survive every operation

Used to reason about runs of arbitrary user programs: no operation ever
changes an existing node's `parent` or removes a node. -/

theorem pshadow_inv (s : State) (i : Nat) (q : Option Nat)
    (h : pshadow s i = some q) : ∃ n, s.node? i = some n ∧ n.parent = q := by
  rw [pshadow] at h
  cases hn : s.node? i with
  | none => rw [hn] at h; exact Option.noConfusion h
  | some n =>
    rw [hn, Option.map_some'] at h
    exact ⟨n, rfl, Option.some_inj.mp h⟩

theorem pshadow_begun (s : State) (b : Nat) (t : Nat) :
    pshadow { s with begun := b } t = pshadow s t := rfl

theorem pshadow_pushCommit (s : State) (i : Nat) (n : Node) (cb : CommitCB)
    (hn : s.node? i = some n) :
    ∀ t, pshadow (pushCommit s i n cb) t = pshadow s t :=
  pshadow_setNode s i n _ hn rfl

theorem pshadow_pushRollback (s : State) (i : Nat) (n : Node) (cb : RollbackCB)
    (hn : s.node? i = some n) :
    ∀ t, pshadow (pushRollback s i n cb) t = pshadow s t :=
  pshadow_setNode s i n _ hn rfl

theorem onCommittedFuel_pres (s : State) :
    ∀ (f i : Nat) (cb : CommitCB),
      (onCommittedFuel s f i cb).nodes.length = s.nodes.length ∧
      ∀ t, pshadow (onCommittedFuel s f i cb) t = pshadow s t := by
  intro f
  induction f with
  | zero => intro i cb; exact ⟨rfl, fun t => rfl⟩
  | succ f ih =>
    intro i cb
    cases hn : s.node? i with
    | none => simp [onCommittedFuel, hn]
    | some n =>
      cases hpar : n.parent with
      | none =>
        have heq : onCommittedFuel s (f + 1) i cb =
            pushCommit s i n ⟨i :: cb.guards, cb.user⟩ := by
          simp [onCommittedFuel, hn, hpar, pushCommit]
        rw [heq]
        exact ⟨len_pushCommit .., pshadow_pushCommit s i n _ hn⟩
      | some p =>
        have := ih p { cb with guards := i :: cb.guards }
        simp only [onCommittedFuel, hn, hpar]
        exact this

theorem onRollbackedFuel_pres (s : State) :
    ∀ (f i u : Nat),
      (onRollbackedFuel s f i u).nodes.length = s.nodes.length ∧
      ∀ t, pshadow (onRollbackedFuel s f i u) t = pshadow s t := by
  intro f
  induction f with
  | zero => intro i u; exact ⟨rfl, fun t => rfl⟩
  | succ f ih =>
    intro i u
    cases hn : s.node? i with
    | none => simp [onRollbackedFuel, hn]
    | some n =>
      cases hpar : n.parent with
      | none =>
        have heq : onRollbackedFuel s (f + 1) i u =
            pushRollback s i n ⟨i, u⟩ := by
          simp [onRollbackedFuel, hn, hpar, pushRollback]
        rw [heq]
        exact ⟨len_pushRollback .., pshadow_pushRollback s i n _ hn⟩
      | some p =>
        have := ih p u
        simp only [onRollbackedFuel, hn, hpar]
        exact this

theorem mOnCommitted_pres (s : State) (ctx : Ctx) (u : Nat) :
    (mOnCommitted s ctx u).1.nodes.length = s.nodes.length ∧
    ∀ t, pshadow (mOnCommitted s ctx u).1 t = pshadow s t := by
  cases ctx with
  | none => exact ⟨rfl, fun t => rfl⟩
  | some i =>
    by_cases hin : tcInTransaction s (some i)
    · have := onCommittedFuel_pres s (i + 1) i ⟨[], u⟩
      simpa [mOnCommitted, findTransContext, hin] using this
    · simp [mOnCommitted, findTransContext, hin]

theorem mOnRollbacked_pres (s : State) (ctx : Ctx) (u : Nat) :
    (mOnRollbacked s ctx u).1.nodes.length = s.nodes.length ∧
    ∀ t, pshadow (mOnRollbacked s ctx u).1 t = pshadow s t := by
  cases ctx with
  | none => exact ⟨rfl, fun t => rfl⟩
  | some i =>
    have := onRollbackedFuel_pres s (i + 1) i u
    simpa [mOnRollbacked, findTransContext] using this

theorem tcEnd_pres (s : State) (t : Option Nat) (pk : Bool) (er : Option Err) :
    (tcEnd s t pk er).1.nodes.length = s.nodes.length ∧
    ∀ j, pshadow (tcEnd s t pk er).1 j = pshadow s j := by
  cases t with
  | none => exact ⟨rfl, fun j => rfl⟩
  | some i =>
    cases hn : s.node? i with
    | none => simp [tcEnd, hn]
    | some n =>
      have hps := pshadow_setNode s i n { n with panicked := pk, err := er } hn rfl
      have hlen : (s.setNode i { n with panicked := pk, err := er }).nodes.length
          = s.nodes.length := len_setNode ..
      cases hpar : n.parent with
      | some p =>
        rw [tcEnd_nonroot s i n p hn hpar pk er]
        exact ⟨hlen, hps⟩
      | none =>
        rw [tcEnd_root s i n hn hpar pk er]
        exact ⟨hlen, hps⟩

theorem setDoneNode_pres (s : State) (i : Nat) :
    (setDoneNode s i).nodes.length = s.nodes.length ∧
    ∀ j, pshadow (setDoneNode s i) j = pshadow s j := by
  cases hn : s.node? i with
  | none => simp [setDoneNode, State.upd, hn]
  | some n =>
    rw [setDoneNode_eq s i n hn]
    exact ⟨len_setNode .., pshadow_setNode s i n { n with done := true } hn rfl⟩

/-- Shape of `finishFrame` on normal return. -/
theorem finishFrame_ok (r : RunRes) (i : Nat) (err : Option Err)
    (ho : r.outcome = .ok err) :
    finishFrame r i =
      { r with st := setDoneNode (tcEnd r.st (some i) false err).1 i,
               events := r.events ++ (tcEnd r.st (some i) false err).2 } := by
  simp [finishFrame, ho]

/-- Shape of `finishFrame` on a panic when this node's rollback registry is
empty: the panic is not recovered, only `done` is set. -/
theorem finishFrame_panic_noreg (r : RunRes) (i : Nat) (p : Payload)
    (ho : r.outcome = .panicked p)
    (hreg : (rollbackCBs (setDoneNode r.st i) i).isEmpty = true) :
    finishFrame r i = { r with st := setDoneNode r.st i } := by
  simp [finishFrame, ho, hreg]

/-- Shape of `finishFrame` on a panic when this node's rollback registry is
non-empty: the panic is recovered, converted, `End(true, err)` runs, and the
panic is re-raised (the outcome stays the original panic). -/
theorem finishFrame_panic_reg (r : RunRes) (i : Nat) (p : Payload)
    (ho : r.outcome = .panicked p)
    (hreg : (rollbackCBs (setDoneNode r.st i) i).isEmpty = false) :
    finishFrame r i =
      { r with
        st := (tcEnd (setDoneNode r.st i) (some i) true
                (some (convertPayload p))).1,
        events := r.events ++
          (tcEnd (setDoneNode r.st i) (some i) true
            (some (convertPayload p))).2 } := by
  simp [finishFrame, ho, hreg]

theorem finishFrame_pres (r : RunRes) (i : Nat) :
    (finishFrame r i).st.nodes.length = r.st.nodes.length ∧
    ∀ j, pshadow (finishFrame r i).st j = pshadow r.st j := by
  cases ho : r.outcome with
  | ok err =>
    have h1 := tcEnd_pres r.st (some i) false err
    have h2 := setDoneNode_pres (tcEnd r.st (some i) false err).1 i
    rw [finishFrame_ok r i err ho]
    exact ⟨by rw [h2.1, h1.1], fun j => by rw [h2.2 j, h1.2 j]⟩
  | panicked p =>
    have h1 := setDoneNode_pres r.st i
    cases hreg : (rollbackCBs (setDoneNode r.st i) i).isEmpty with
    | true =>
      rw [finishFrame_panic_noreg r i p ho hreg]
      exact h1
    | false =>
      have h2 := tcEnd_pres (setDoneNode r.st i) (some i) true
        (some (convertPayload p))
      rw [finishFrame_panic_reg r i p ho hreg]
      exact ⟨by rw [h2.1, h1.1], fun j => by rw [h2.2 j, h1.2 j]⟩

theorem enterTrans_beginErr_nodes (m : Mgr) (s : State) (ctx : Ctx)
    (s0 : State) (e : Err) (h : enterTrans m s ctx = .beginErr s0 e) :
    s0.nodes = s.nodes := by
  cases hfd : findDBAndTransContext m s ctx with
  | error p =>
    simp only [enterTrans, hfd] at h
    exact EnterRes.noConfusion h
  | ok pr =>
    obtain ⟨prevTc, db⟩ := pr
    cases hbool : mInTransaction s ctx with
    | true =>
      simp only [enterTrans, hfd, hbool, eq_self_iff_true, if_true] at h
      exact EnterRes.noConfusion h
    | false =>
      cases hbf : m.beginFail with
      | none =>
        simp only [enterTrans, hfd, hbool, Bool.false_eq_true, if_false,
          hbf] at h
        exact EnterRes.noConfusion h
      | some e' =>
        simp only [enterTrans, hfd, hbool, Bool.false_eq_true, if_false,
          hbf] at h
        injection h with h1 h2
        rw [← h1]

/-- The new-node facts common to both branches of `enterTrans` that reach the
inner callback. -/
theorem enterTrans_frame_nodes (m : Mgr) (s : State) (ctx : Ctx)
    (s1 : State) (i : Nat) (h : enterTrans m s ctx = .frame s1 i) :
    i = s.nodes.length ∧
    s1.nodes.length = s.nodes.length + 1 ∧
    (∀ t, t < s.nodes.length → s1.node? t = s.node? t) ∧
    ∃ nd, s1.node? i = some nd ∧ nd.done = false ∧ nd.panicked = true ∧
      nd.err = none ∧ nd.onCommittedCallbacks = [] ∧
      nd.onRollbackedCallbacks = [] := by
  have main : ∀ (sb : State) (prevTc : Option Nat) (db : Nat),
      sb.nodes = s.nodes → (tcStart sb prevTc db).1 = s1 →
      sb.nodes.length = i →
      i = s.nodes.length ∧
      s1.nodes.length = s.nodes.length + 1 ∧
      (∀ t, t < s.nodes.length → s1.node? t = s.node? t) ∧
      ∃ nd, s1.node? i = some nd ∧ nd.done = false ∧ nd.panicked = true ∧
        nd.err = none ∧ nd.onCommittedCallbacks = [] ∧
        nd.onRollbackedCallbacks = [] := by
    intro sb prevTc db hnodes hstart hlen
    have hi : i = s.nodes.length := by rw [← hlen, hnodes]
    refine ⟨hi, ?_, ?_, ?_⟩
    · rw [← hstart, len_tcStart, hnodes]
    · intro t ht
      rw [← hstart, node?_tcStart_lt sb prevTc db t (by rw [hnodes]; exact ht)]
      show sb.nodes.get? t = s.nodes.get? t
      rw [hnodes]
    · have hnew := node?_tcStart_new sb prevTc db
      rw [hstart, hlen] at hnew
      exact ⟨_, hnew, rfl, rfl, rfl, rfl, rfl⟩
  cases hfd : findDBAndTransContext m s ctx with
  | error p =>
    simp only [enterTrans, hfd] at h
    exact EnterRes.noConfusion h
  | ok pr =>
    obtain ⟨prevTc, db⟩ := pr
    cases hbool : mInTransaction s ctx with
    | true =>
      simp only [enterTrans, hfd, hbool, eq_self_iff_true, if_true] at h
      injection h with h1 h2
      exact main s prevTc db rfl h1 h2
    | false =>
      cases hbf : m.beginFail with
      | none =>
        simp only [enterTrans, hfd, hbool, Bool.false_eq_true, if_false,
          hbf] at h
        injection h with h1 h2
        exact main { s with begun := s.begun + 1 } prevTc (db + 1) rfl h1 h2
      | some e' =>
        simp only [enterTrans, hfd, hbool, Bool.false_eq_true, if_false,
          hbf] at h
        exact EnterRes.noConfusion h

/-- A nested `Transaction` call inside a program is the standalone
`Transaction`, panic propagation skipping the continuation. -/
theorem runProg_trans_panic (m : Mgr) (s : State) (ctx : Ctx) (body : Prog)
    (k : Option Err → Prog) (p : Payload)
    (h : (mTransaction m s ctx body).outcome = .panicked p) :
    runProg m s ctx (.trans body k) = mTransaction m s ctx body := by
  cases henter : enterTrans m s ctx with
  | fatal q => simp [runProg, mTransaction, henter]
  | beginErr s0 e =>
    simp only [mTransaction, henter] at h
    exact Outcome.noConfusion h
  | frame s1 i =>
    simp only [mTransaction, henter] at h ⊢
    simp [runProg, henter, h]

/-- A nested `Transaction` call that returns error `e` feeds `e` to the
continuation and concatenates the observations. -/
theorem runProg_trans_ok (m : Mgr) (s : State) (ctx : Ctx) (body : Prog)
    (k : Option Err → Prog) (e : Option Err)
    (h : (mTransaction m s ctx body).outcome = .ok e) :
    runProg m s ctx (.trans body k) =
      ⟨(runProg m (mTransaction m s ctx body).st ctx (k e)).st,
       (mTransaction m s ctx body).events ++
         (runProg m (mTransaction m s ctx body).st ctx (k e)).events,
       (mTransaction m s ctx body).probes ++
         (runProg m (mTransaction m s ctx body).st ctx (k e)).probes,
       (mTransaction m s ctx body).leaked ++
         (runProg m (mTransaction m s ctx body).st ctx (k e)).leaked,
       (runProg m (mTransaction m s ctx body).st ctx (k e)).outcome⟩ := by
  cases henter : enterTrans m s ctx with
  | fatal q =>
    simp only [mTransaction, henter] at h
    exact Outcome.noConfusion h
  | beginErr s0 e' =>
    simp only [mTransaction, henter] at h ⊢
    injection h with h
    subst h
    simp [runProg, henter]
  | frame s1 i =>
    simp only [mTransaction, henter] at h ⊢
    simp [runProg, henter, h]

/-- Running any user program never removes nodes and never changes an
existing node's parent pointer. -/
theorem runProg_pres (m : Mgr) :
    ∀ (p : Prog) (s : State) (ctx : Ctx),
      s.nodes.length ≤ (runProg m s ctx p).st.nodes.length ∧
      ∀ t, t < s.nodes.length →
        pshadow (runProg m s ctx p).st t = pshadow s t := by
  intro p
  induction p with
  | ret e => intro s ctx; exact ⟨Nat.le_refl _, fun t _ => rfl⟩
  | panicp q => intro s ctx; exact ⟨Nat.le_refl _, fun t _ => rfl⟩
  | onCommitted u k ih =>
    intro s ctx
    have hpre := mOnCommitted_pres s ctx u
    have hk := ih (mOnCommitted s ctx u).1 ctx
    have hit : runProg m s ctx (.onCommitted u k) =
        runProg m (mOnCommitted s ctx u).1 ctx k := by
      simp [runProg]
    rw [hit]
    constructor
    · rw [← hpre.1]; exact hk.1
    · intro t ht
      rw [hk.2 t (by rw [hpre.1]; exact ht), hpre.2 t]
  | onRollbacked u k ih =>
    intro s ctx
    have hpre := mOnRollbacked_pres s ctx u
    have hk := ih (mOnRollbacked s ctx u).1 ctx
    have hit : runProg m s ctx (.onRollbacked u k) =
        runProg m (mOnRollbacked s ctx u).1 ctx k := by
      simp [runProg]
    rw [hit]
    constructor
    · rw [← hpre.1]; exact hk.1
    · intro t ht
      rw [hk.2 t (by rw [hpre.1]; exact ht), hpre.2 t]
  | inTransQ k ih =>
    intro s ctx
    have hst : (runProg m s ctx (.inTransQ k)).st = (runProg m s ctx k).st := by
      simp [runProg]
    rw [hst]
    exact ih s ctx
  | leak k ih =>
    intro s ctx
    have hst : (runProg m s ctx (.leak k)).st = (runProg m s ctx k).st := by
      simp [runProg]
    rw [hst]
    exact ih s ctx
  | trans body k ihb ihk =>
    intro s ctx
    cases henter : enterTrans m s ctx with
    | fatal q =>
      have hit : runProg m s ctx (.trans body k) = ⟨s, [], [], [], .panicked q⟩ := by
        simp [runProg, henter]
      rw [hit]
      exact ⟨Nat.le_refl _, fun t _ => rfl⟩
    | beginErr s0 e =>
      have hit : runProg m s ctx (.trans body k) =
          runProg m s0 ctx (k (some e)) := by
        simp [runProg, henter]
      have hn0 : s0.nodes = s.nodes := enterTrans_beginErr_nodes m s ctx s0 e henter
      have hk := ihk (some e) s0 ctx
      rw [hit]
      constructor
      · rw [show s.nodes.length = s0.nodes.length by rw [hn0]]
        exact hk.1
      · intro t ht
        rw [hk.2 t (by rw [hn0]; exact ht)]
        show _ = pshadow s t
        rw [pshadow, pshadow, State.node?, State.node?, hn0]
    | frame s1 i =>
      obtain ⟨-, hlen1, hkeep, -⟩ := enterTrans_frame_nodes m s ctx s1 i henter
      have hb := ihb s1 (some i)
      have hff := finishFrame_pres (runProg m s1 (some i) body) i
      have hlen_s_s1 : s.nodes.length ≤ s1.nodes.length := by omega
      cases ho : (finishFrame (runProg m s1 (some i) body) i).outcome with
      | panicked q =>
        have hit : runProg m s ctx (.trans body k) =
            finishFrame (runProg m s1 (some i) body) i := by
          simp [runProg, henter, ho]
        rw [hit]
        constructor
        · rw [hff.1]
          exact Nat.le_trans hlen_s_s1 hb.1
        · intro t ht
          rw [hff.2 t, hb.2 t (Nat.lt_of_lt_of_le ht hlen_s_s1)]
          rw [pshadow, pshadow, hkeep t ht]
      | ok e =>
        set tr := finishFrame (runProg m s1 (some i) body) i with htr
        have hit : runProg m s ctx (.trans body k) =
            ⟨(runProg m tr.st ctx (k e)).st,
             tr.events ++ (runProg m tr.st ctx (k e)).events,
             tr.probes ++ (runProg m tr.st ctx (k e)).probes,
             tr.leaked ++ (runProg m tr.st ctx (k e)).leaked,
             (runProg m tr.st ctx (k e)).outcome⟩ := by
          simp [runProg, henter, ← htr, ho]
        have hk := ihk e tr.st ctx
        rw [hit]
        constructor
        · refine Nat.le_trans hlen_s_s1 (Nat.le_trans hb.1 ?_)
          rw [← hff.1]
          exact hk.1
        · intro t ht
          have ht1 : t < s1.nodes.length := Nat.lt_of_lt_of_le ht hlen_s_s1
          have httr : t < tr.st.nodes.length := by
            rw [hff.1]
            exact Nat.lt_of_lt_of_le ht1 hb.1
          rw [hk.2 t httr, hff.2 t, hb.2 t ht1]
          rw [pshadow, pshadow, hkeep t ht]

/-! ## Support for runs of always-successful programs -/

theorem shadow_inv (s : State) (i : Nat) (pr : Option Nat) (d pk : Bool)
    (er : Option Err) (h : shadow s i = some (pr, d, pk, er)) :
    ∃ n, s.node? i = some n ∧ n.parent = pr ∧ n.done = d ∧
      n.panicked = pk ∧ n.err = er := by
  rw [shadow] at h
  cases hn : s.node? i with
  | none => rw [hn] at h; exact Option.noConfusion h
  | some n =>
    rw [hn, Option.map_some'] at h
    injection h with h
    simp only [Prod.mk.injEq] at h
    obtain ⟨h1, h2, h3, h4⟩ := h
    exact ⟨n, rfl, h1, h2, h3, h4⟩

theorem pshadow_eq_of_shadow (s s' : State) (t : Nat)
    (h : shadow s t = shadow s' t) : pshadow s t = pshadow s' t := by
  rw [shadow, shadow] at h
  rw [pshadow, pshadow]
  cases hn : s.node? t with
  | none =>
    rw [hn, Option.map_none'] at h
    cases hn' : s'.node? t with
    | none => rfl
    | some n' =>
      rw [hn', Option.map_some'] at h
      exact Option.noConfusion h
  | some n =>
    rw [hn, Option.map_some'] at h
    cases hn' : s'.node? t with
    | none =>
      rw [hn', Option.map_none'] at h
      exact Option.noConfusion h
    | some n' =>
      rw [hn', Option.map_some'] at h
      rw [Option.map_some', Option.map_some']
      injection h with h
      simp only [Prod.mk.injEq] at h
      rw [h.1]

theorem commitCBs_setNode (s : State) (i : Nat) (n n' : Node)
    (hn : s.node? i = some n)
    (h : n'.onCommittedCallbacks = n.onCommittedCallbacks) :
    ∀ j, commitCBs (s.setNode i n') j = commitCBs s j := by
  intro j
  by_cases hj : j = i
  · subst hj
    simp only [commitCBs, hn,
      node?_setNode_self s j n' (node?_some_lt s j n hn), h]
  · rw [commitCBs, commitCBs, node?_setNode_ne s i j n' hj]

theorem rollbackCBs_setNode (s : State) (i : Nat) (n n' : Node)
    (hn : s.node? i = some n)
    (h : n'.onRollbackedCallbacks = n.onRollbackedCallbacks) :
    ∀ j, rollbackCBs (s.setNode i n') j = rollbackCBs s j := by
  intro j
  by_cases hj : j = i
  · subst hj
    simp only [rollbackCBs, hn,
      node?_setNode_self s j n' (node?_some_lt s j n hn), h]
  · rw [rollbackCBs, rollbackCBs, node?_setNode_ne s i j n' hj]

/-- The cascade never touches the registries: `End` only records the two
fields and fires snapshots (nothing is cleared). -/
theorem tcEnd_regs (s : State) (t : Option Nat) (pk : Bool) (er : Option Err) :
    ∀ j, commitCBs (tcEnd s t pk er).1 j = commitCBs s j ∧
      rollbackCBs (tcEnd s t pk er).1 j = rollbackCBs s j := by
  intro j
  cases t with
  | none => exact ⟨rfl, rfl⟩
  | some i =>
    cases hn : s.node? i with
    | none => simp [tcEnd, hn]
    | some n =>
      have hc := commitCBs_setNode s i n { n with panicked := pk, err := er } hn rfl j
      have hr := rollbackCBs_setNode s i n { n with panicked := pk, err := er } hn rfl j
      cases hpar : n.parent with
      | some q =>
        rw [tcEnd_nonroot s i n q hn hpar pk er]
        exact ⟨hc, hr⟩
      | none =>
        rw [tcEnd_root s i n hn hpar pk er]
        exact ⟨hc, hr⟩

theorem setDoneNode_regs (s : State) (i : Nat) :
    ∀ j, commitCBs (setDoneNode s i) j = commitCBs s j ∧
      rollbackCBs (setDoneNode s i) j = rollbackCBs s j := by
  intro j
  cases hn : s.node? i with
  | none => simp [setDoneNode, State.upd, hn]
  | some n =>
    rw [setDoneNode_eq s i n hn]
    exact ⟨commitCBs_setNode s i n { n with done := true } hn rfl j,
      rollbackCBs_setNode s i n { n with done := true } hn rfl j⟩

theorem WF_tcEnd (s : State) (t : Option Nat) (pk : Bool) (er : Option Err)
    (hwf : WF s) : WF (tcEnd s t pk er).1 := by
  cases t with
  | none => exact hwf
  | some i =>
    cases hn : s.node? i with
    | none => simpa [tcEnd, hn] using hwf
    | some n =>
      cases hpar : n.parent with
      | some q =>
        rw [tcEnd_nonroot s i n q hn hpar pk er]
        exact WF_setNode s i n _ hn rfl hwf
      | none =>
        rw [tcEnd_root s i n hn hpar pk er]
        exact WF_setNode s i n _ hn rfl hwf

theorem WF_setDoneNode (s : State) (i : Nat) (hwf : WF s) :
    WF (setDoneNode s i) := by
  cases hn : s.node? i with
  | none => simpa [setDoneNode, State.upd, hn] using hwf
  | some n =>
    rw [setDoneNode_eq s i n hn]
    exact WF_setNode s i n _ hn rfl hwf

theorem shadow_tcEnd_ne (s : State) (i : Nat) (pk : Bool) (er : Option Err) :
    ∀ t, t ≠ i → shadow (tcEnd s (some i) pk er).1 t = shadow s t := by
  intro t ht
  cases hn : s.node? i with
  | none => simp [tcEnd, hn]
  | some n =>
    cases hpar : n.parent with
    | some q =>
      rw [tcEnd_nonroot s i n q hn hpar pk er]
      exact shadow_setNode_ne s i _ t ht
    | none =>
      rw [tcEnd_root s i n hn hpar pk er]
      exact shadow_setNode_ne s i _ t ht

theorem shadow_setDoneNode_ne (s : State) (i : Nat) :
    ∀ t, t ≠ i → shadow (setDoneNode s i) t = shadow s t := by
  intro t ht
  cases hn : s.node? i with
  | none => simp [setDoneNode, State.upd, hn]
  | some n =>
    rw [setDoneNode_eq s i n hn]
    exact shadow_setNode_ne s i _ t ht

theorem mInTransaction_some (s : State) (c : Nat) :
    mInTransaction s (some c) = inTransFuel s (c + 1) c := rfl

theorem findDB_inTrans (m : Mgr) (s : State) (c : Nat)
    (hin : inTransFuel s (c + 1) c = true) :
    findDBAndTransContext m s (some c) = .ok (some c, nodeDb s c) := by
  simp [findDBAndTransContext, findTransContext, tcInTransaction, hin]

/-- A `Transaction` call from inside an active transaction enters the nested
branch: no physical begin, the parent's handle is reused, the child node is
appended. -/
theorem enterTrans_nested (m : Mgr) (s : State) (c : Nat)
    (hin : inTransFuel s (c + 1) c = true) :
    enterTrans m s (some c) =
      .frame (tcStart s (some c) (nodeDb s c)).1 s.nodes.length := by
  have hfd := findDB_inTrans m s c hin
  have hmin : mInTransaction s (some c) = true := hin
  simp [enterTrans, hfd, hmin, tcStart]

theorem rootIdx_of_shadowEq (s s' : State) (c : Nat) (hwf : WF s)
    (hsh : ∀ t, t ≤ c → shadow s' t = shadow s t) :
    rootIdx s' c = rootIdx s c :=
  rootIdxFuel_congr s s' hwf (c + 1) c
    (fun t ht => pshadow_eq_of_shadow s' s t (hsh t ht))

theorem rootIdx_of_pshadowEq (s s' : State) (c : Nat) (hwf : WF s)
    (hsh : ∀ t, t ≤ c → pshadow s' t = pshadow s t) :
    rootIdx s' c = rootIdx s c :=
  rootIdxFuel_congr s s' hwf (c + 1) c hsh

theorem setNode_setNode (s : State) (i : Nat) (a b : Node) :
    (s.setNode i a).setNode i b = s.setNode i b := by
  show ({ s with nodes := (s.nodes.set i a).set i b } : State) = _
  rw [List.set_set]
  rfl

/-- Ending a nested (non-root) frame after a normal `nil` return: `End`
records the cleared flags without cascading, the deferred function sets
`done`, and nothing else changes. -/
theorem finishFrame_nested (r : RunRes) (n0 c : Nat) (nn : Node)
    (hout : r.outcome = .ok none)
    (hn : r.st.node? n0 = some nn) (hpar : nn.parent = some c) :
    finishFrame r n0 = { r with st := (r.st.setNode n0
      { nn with done := true, panicked := false, err := none }) } := by
  rw [finishFrame_ok r n0 none hout, tcEnd_nonroot r.st n0 nn c hn hpar false none]
  have hnA : (r.st.setNode n0 { nn with panicked := false, err := none }).node? n0
      = some { nn with panicked := false, err := none } :=
    node?_setNode_self _ _ _ (node?_some_lt _ _ _ hn)
  rw [setDoneNode_eq _ n0 _ hnA, setNode_setNode]
  simp

theorem mOnCommitted_active (s : State) (c u : Nat)
    (hin : inTransFuel s (c + 1) c = true) :
    mOnCommitted s (some c) u = (onCommittedFuel s (c + 1) c ⟨[], u⟩, true) := by
  simp [mOnCommitted, findTransContext, tcInTransaction, hin]

theorem mOnRollbacked_some (s : State) (c u : Nat) :
    mOnRollbacked s (some c) u = (onRollbackedFuel s (c + 1) c u, true) := rfl

/-! ## Always-successful programs (claims C4 and C5) -/

/-- Programs in which the outer callback and every nested callback return
`nil` and never panic. -/
inductive NoFail : Prog → Prop where
  | ret : NoFail (.ret none)
  | onCommitted (u : Nat) {k : Prog} : NoFail k → NoFail (.onCommitted u k)
  | onRollbacked (u : Nat) {k : Prog} : NoFail k → NoFail (.onRollbacked u k)
  | inTransQ {k : Prog} : NoFail k → NoFail (.inTransQ k)
  | leak {k : Prog} : NoFail k → NoFail (.leak k)
  | trans {body : Prog} {k : Option Err → Prog} :
      NoFail body → NoFail (k none) → NoFail (.trans body k)

/-- The user ids of the `OnCommitted` registrations a `NoFail` program
performs, in registration order (nested calls return `nil`, so the
continuation of a nested `Transaction` runs on `none`). -/
def commitRegs : Prog → List Nat
  | .ret _ => []
  | .panicp _ => []
  | .onCommitted u k => u :: commitRegs k
  | .onRollbacked _ k => commitRegs k
  | .inTransQ k => commitRegs k
  | .leak k => commitRegs k
  | .trans body k => commitRegs body ++ commitRegs (k none)

/-- Number of `InTransaction` queries a `NoFail` program performs. -/
def probeCount : Prog → Nat
  | .ret _ => 0
  | .panicp _ => 0
  | .onCommitted _ k => probeCount k
  | .onRollbacked _ k => probeCount k
  | .inTransQ k => probeCount k + 1
  | .leak k => probeCount k
  | .trans body k => probeCount body + probeCount (k none)

/-- Number of contexts a `NoFail` program retains. -/
def leakCount : Prog → Nat
  | .ret _ => 0
  | .panicp _ => 0
  | .onCommitted _ k => leakCount k
  | .onRollbacked _ k => leakCount k
  | .inTransQ k => leakCount k
  | .leak k => leakCount k + 1
  | .trans body k => leakCount body + leakCount (k none)

/-- Main run lemma for `NoFail` programs executed with an active current node
`c`: the run returns `nil`, fires nothing, answers `true` to every
`InTransaction` query, leaks only contexts rooted at `c`'s root, preserves
existing nodes' walk fields, leaves every newly created node ended cleanly
(`panicked = false`, `err = none`), and appends exactly its `commitRegs` to
the root's commit registry. -/
theorem nfRun (m : Mgr) :
    ∀ (p : Prog), NoFail p → ∀ (s : State) (c : Nat),
      WF s → c < s.nodes.length → inTransFuel s (c + 1) c = true →
      (runProg m s (some c) p).outcome = .ok none ∧
      (runProg m s (some c) p).events = [] ∧
      (runProg m s (some c) p).probes = List.replicate (probeCount p) true ∧
      (runProg m s (some c) p).leaked.length = leakCount p ∧
      (∀ x ∈ (runProg m s (some c) p).leaked, ∃ j, x = some j ∧
        j < (runProg m s (some c) p).st.nodes.length ∧
        rootIdx (runProg m s (some c) p).st j = rootIdx s c) ∧
      s.nodes.length ≤ (runProg m s (some c) p).st.nodes.length ∧
      WF (runProg m s (some c) p).st ∧
      (∀ t, t < s.nodes.length →
        shadow (runProg m s (some c) p).st t = shadow s t) ∧
      (∀ t n, s.nodes.length ≤ t →
        (runProg m s (some c) p).st.node? t = some n →
        n.panicked = false ∧ n.err = none) ∧
      (∃ Δ, commitCBs (runProg m s (some c) p).st (rootIdx s c) =
          commitCBs s (rootIdx s c) ++ Δ ∧
        Δ.map CommitCB.user = commitRegs p) ∧
      (∀ t, t < s.nodes.length → t ≠ rootIdx s c →
        commitCBs (runProg m s (some c) p).st t = commitCBs s t) := by
  intro p hNF
  induction hNF with
  | ret =>
    intro s c hwf hc hin
    refine ⟨rfl, rfl, rfl, rfl, ?_, Nat.le_refl _, hwf, fun t _ => rfl,
      ?_, ⟨[], by simp [runProg], rfl⟩, fun t _ _ => rfl⟩
    · intro x hx
      simp [runProg] at hx
    · intro t n ht hn
      have := node?_of_ge s t ht
      rw [show (runProg m s (some c) (.ret none)).st = s from rfl] at hn
      rw [this] at hn
      exact Option.noConfusion hn
  | onCommitted u hk ih =>
    rename_i k
    intro s c hwf hc hin
    obtain ⟨gs, nR, hnR, heq⟩ :=
      onCommittedFuel_spec s hwf c hc (c + 1) (Nat.lt_succ_self c) ⟨[], u⟩
    have h1 : (mOnCommitted s (some c) u).1 =
        pushCommit s (rootIdx s c) nR ⟨gs, u⟩ := by
      rw [mOnCommitted_active s c u hin, heq]
    have hrun : runProg m s (some c) (.onCommitted u k) =
        runProg m (pushCommit s (rootIdx s c) nR ⟨gs, u⟩) (some c) k := by
      simp only [runProg, h1]
    have hlen' : (pushCommit s (rootIdx s c) nR ⟨gs, u⟩).nodes.length
        = s.nodes.length := len_pushCommit ..
    have hsh' := shadow_pushCommit s (rootIdx s c) nR ⟨gs, u⟩ hnR
    have hwf' : WF (pushCommit s (rootIdx s c) nR ⟨gs, u⟩) :=
      WF_setNode s (rootIdx s c) nR _ hnR rfl hwf
    have hin' : inTransFuel (pushCommit s (rootIdx s c) nR ⟨gs, u⟩)
        (c + 1) c = true := by
      rw [inTransFuel_congr s _ hwf (c + 1) c (fun t _ => hsh' t)]
      exact hin
    have hc' : c < (pushCommit s (rootIdx s c) nR ⟨gs, u⟩).nodes.length := by
      rw [hlen']; exact hc
    have hroot' : rootIdx (pushCommit s (rootIdx s c) nR ⟨gs, u⟩) c
        = rootIdx s c :=
      rootIdx_of_shadowEq s _ c hwf (fun t _ => hsh' t)
    obtain ⟨o1, o2, o3, o4, o5, o6, o7, o8, o9, ⟨Δk, hΔ1, hΔ2⟩, o11⟩ :=
      ih (pushCommit s (rootIdx s c) nR ⟨gs, u⟩) c hwf' hc' hin'
    rw [hrun]
    refine ⟨o1, o2, o3, o4, ?_, ?_, o7, ?_, ?_, ?_, ?_⟩
    · intro x hx
      obtain ⟨j, hj1, hj2, hj3⟩ := o5 x hx
      exact ⟨j, hj1, hj2, by rw [hj3, hroot']⟩
    · rw [← hlen']; exact o6
    · intro t ht
      rw [o8 t (by rw [hlen']; exact ht), hsh' t]
    · intro t n ht hn
      exact o9 t n (by rw [hlen']; exact ht) hn
    · refine ⟨⟨gs, u⟩ :: Δk, ?_, ?_⟩
      · rw [hroot'] at hΔ1
        rw [hΔ1, commitCBs_pushCommit_self s (rootIdx s c) nR ⟨gs, u⟩ hnR,
          List.append_assoc, List.singleton_append]
      · rw [List.map_cons, hΔ2]
        rfl
    · intro t ht hne
      rw [o11 t (by rw [hlen']; exact ht) (by rw [hroot']; exact hne),
        commitCBs_pushCommit_ne s (rootIdx s c) nR ⟨gs, u⟩ t hne]
  | onRollbacked u hk ih =>
    rename_i k
    intro s c hwf hc hin
    obtain ⟨nR, hnR, heq⟩ :=
      onRollbackedFuel_spec s hwf c hc (c + 1) (Nat.lt_succ_self c) u
    have h1 : (mOnRollbacked s (some c) u).1 =
        pushRollback s (rootIdx s c) nR ⟨rootIdx s c, u⟩ := by
      rw [mOnRollbacked_some s c u, heq]
    have hrun : runProg m s (some c) (.onRollbacked u k) =
        runProg m (pushRollback s (rootIdx s c) nR ⟨rootIdx s c, u⟩)
          (some c) k := by
      simp only [runProg, h1]
    have hlen' : (pushRollback s (rootIdx s c) nR ⟨rootIdx s c, u⟩).nodes.length
        = s.nodes.length := len_pushRollback ..
    have hsh' := shadow_pushRollback s (rootIdx s c) nR ⟨rootIdx s c, u⟩ hnR
    have hwf' : WF (pushRollback s (rootIdx s c) nR ⟨rootIdx s c, u⟩) :=
      WF_setNode s (rootIdx s c) nR _ hnR rfl hwf
    have hin' : inTransFuel (pushRollback s (rootIdx s c) nR ⟨rootIdx s c, u⟩)
        (c + 1) c = true := by
      rw [inTransFuel_congr s _ hwf (c + 1) c (fun t _ => hsh' t)]
      exact hin
    have hc' : c < (pushRollback s (rootIdx s c) nR
        ⟨rootIdx s c, u⟩).nodes.length := by
      rw [hlen']; exact hc
    have hroot' : rootIdx (pushRollback s (rootIdx s c) nR
        ⟨rootIdx s c, u⟩) c = rootIdx s c :=
      rootIdx_of_shadowEq s _ c hwf (fun t _ => hsh' t)
    have hcc := commitCBs_pushRollback s (rootIdx s c) nR
      ⟨rootIdx s c, u⟩ hnR
    obtain ⟨o1, o2, o3, o4, o5, o6, o7, o8, o9, ⟨Δk, hΔ1, hΔ2⟩, o11⟩ :=
      ih (pushRollback s (rootIdx s c) nR ⟨rootIdx s c, u⟩) c hwf' hc' hin'
    rw [hrun]
    refine ⟨o1, o2, o3, o4, ?_, ?_, o7, ?_, ?_, ?_, ?_⟩
    · intro x hx
      obtain ⟨j, hj1, hj2, hj3⟩ := o5 x hx
      exact ⟨j, hj1, hj2, by rw [hj3, hroot']⟩
    · rw [← hlen']; exact o6
    · intro t ht
      rw [o8 t (by rw [hlen']; exact ht), hsh' t]
    · intro t n ht hn
      exact o9 t n (by rw [hlen']; exact ht) hn
    · refine ⟨Δk, ?_, hΔ2⟩
      rw [hroot'] at hΔ1
      rw [hΔ1, hcc (rootIdx s c)]
    · intro t ht hne
      rw [o11 t (by rw [hlen']; exact ht) (by rw [hroot']; exact hne), hcc t]
  | inTransQ hk ih =>
    rename_i k
    intro s c hwf hc hin
    have hrun : runProg m s (some c) (.inTransQ k) =
        { runProg m s (some c) k with
          probes := mInTransaction s (some c) :: (runProg m s (some c) k).probes } := by
      simp only [runProg]
    obtain ⟨o1, o2, o3, o4, o5, o6, o7, o8, o9, o10, o11⟩ := ih s c hwf hc hin
    rw [hrun]
    refine ⟨o1, o2, ?_, o4, o5, o6, o7, o8, o9, o10, o11⟩
    show mInTransaction s (some c) :: (runProg m s (some c) k).probes = _
    rw [mInTransaction_some, hin, o3, probeCount, List.replicate_succ]
  | leak hk ih =>
    rename_i k
    intro s c hwf hc hin
    have hrun : runProg m s (some c) (.leak k) =
        { runProg m s (some c) k with
          leaked := some c :: (runProg m s (some c) k).leaked } := by
      simp only [runProg]
    obtain ⟨o1, o2, o3, o4, o5, o6, o7, o8, o9, o10, o11⟩ := ih s c hwf hc hin
    rw [hrun]
    refine ⟨o1, o2, o3, ?_, ?_, o6, o7, o8, o9, o10, o11⟩
    · show (some c :: (runProg m s (some c) k).leaked).length = _
      rw [List.length_cons, o4, leakCount]
    · intro x hx
      rcases List.mem_cons.mp hx with hx | hx
      · refine ⟨c, hx, Nat.lt_of_lt_of_le hc o6, ?_⟩
        exact rootIdx_of_shadowEq s _ c hwf
          (fun t ht => o8 t (Nat.lt_of_le_of_lt ht hc))
      · exact o5 x hx
  | trans hbody hkont ihb ihk =>
    rename_i body k
    intro s c hwf hc hin
    have henter := enterTrans_nested m s c hin
    set S1 := (tcStart s (some c) (nodeDb s c)).1 with hS1
    have hlen1 : S1.nodes.length = s.nodes.length + 1 := len_tcStart ..
    have hkeep : ∀ t, t < s.nodes.length → S1.node? t = s.node? t :=
      fun t ht => node?_tcStart_lt s (some c) (nodeDb s c) t ht
    have hnew := node?_tcStart_new s (some c) (nodeDb s c)
    have hwf1 : WF S1 :=
      WF_tcStart s (some c) (nodeDb s c)
        (fun q hq => by injection hq with hq; rw [← hq]; exact hc) hwf
    have hsh1 : ∀ t, t < s.nodes.length → shadow S1 t = shadow s t :=
      fun t ht => by rw [shadow, shadow, hkeep t ht]
    have hn0lt : s.nodes.length < S1.nodes.length := by rw [hlen1]; omega
    have hin1 : inTransFuel S1 (s.nodes.length + 1) s.nodes.length = true := by
      have h1 : inTransFuel S1 (s.nodes.length + 1) s.nodes.length =
          inTransFuel S1 s.nodes.length c := by
        simp [inTransFuel, hnew]
      have h2 : inTransFuel S1 s.nodes.length c = inTransFuel S1 (c + 1) c :=
        inTransFuel_irrel S1 hwf1 c s.nodes.length hc
      have h3 : inTransFuel S1 (c + 1) c = inTransFuel s (c + 1) c :=
        inTransFuel_congr s S1 hwf (c + 1) c
          (fun t ht => hsh1 t (Nat.lt_of_le_of_lt ht hc))
      rw [h1, h2, h3]
      exact hin
    have hroot1 : rootIdx S1 s.nodes.length = rootIdx s c := by
      have h1 : rootIdx S1 s.nodes.length = rootIdxFuel S1 s.nodes.length c := by
        simp [rootIdx, rootIdxFuel, hnew]
      have h2 : rootIdxFuel S1 s.nodes.length c = rootIdx S1 c :=
        rootIdxFuel_irrel S1 hwf1 c s.nodes.length hc
      have h3 : rootIdx S1 c = rootIdx s c :=
        rootIdx_of_shadowEq s S1 c hwf
          (fun t ht => hsh1 t (Nat.lt_of_le_of_lt ht hc))
      rw [h1, h2, h3]
    obtain ⟨b1, b2, b3, b4, b5, b6, b7, b8, b9, ⟨Δ1, hΔ11, hΔ12⟩, b11⟩ :=
      ihb S1 s.nodes.length hwf1 hn0lt hin1
    set r1 := runProg m S1 (some s.nodes.length) body with hr1
    have hsh_n0 : shadow r1.st s.nodes.length = shadow S1 s.nodes.length :=
      b8 s.nodes.length hn0lt
    have hshS1n0 : shadow S1 s.nodes.length =
        some (some c, false, true, none) := by
      rw [shadow, hnew]
      rfl
    obtain ⟨nn, hnn, hnnpar, hnndone, hnnpk, hnnerr⟩ :=
      shadow_inv r1.st s.nodes.length (some c) false true none
        (by rw [hsh_n0, hshS1n0])
    have hff := finishFrame_nested r1 s.nodes.length c nn b1 hnn hnnpar
    set S3 := r1.st.setNode s.nodes.length
      ({ nn with done := true, panicked := false, err := none }) with hS3
    have hnB : S3.node? s.nodes.length =
        some { nn with done := true, panicked := false, err := none } :=
      node?_setNode_self r1.st s.nodes.length _ (node?_some_lt _ _ _ hnn)
    have hlen3 : S3.nodes.length = r1.st.nodes.length := len_setNode ..
    have hwf3 : WF S3 := WF_setNode r1.st s.nodes.length nn _ hnn rfl b7
    have hsh3ne : ∀ t, t ≠ s.nodes.length → shadow S3 t = shadow r1.st t :=
      shadow_setNode_ne r1.st s.nodes.length _
    have hps3 : ∀ t, pshadow S3 t = pshadow r1.st t :=
      pshadow_setNode r1.st s.nodes.length nn _ hnn rfl
    have hregs3 : ∀ t, commitCBs S3 t = commitCBs r1.st t :=
      commitCBs_setNode r1.st s.nodes.length nn _ hnn rfl
    have hlen_s_r1 : s.nodes.length ≤ r1.st.nodes.length :=
      Nat.le_trans (Nat.le_of_lt hn0lt) b6
    have hc3 : c < S3.nodes.length := by
      rw [hlen3]
      exact Nat.lt_of_lt_of_le hc hlen_s_r1
    have hshs3 : ∀ t, t < s.nodes.length → shadow S3 t = shadow s t := by
      intro t ht
      rw [hsh3ne t (Nat.ne_of_lt ht), b8 t (Nat.lt_trans ht hn0lt), hsh1 t ht]
    have hin3 : inTransFuel S3 (c + 1) c = true := by
      rw [inTransFuel_congr s S3 hwf (c + 1) c
        (fun t ht => hshs3 t (Nat.lt_of_le_of_lt ht hc))]
      exact hin
    have hroot3 : rootIdx S3 c = rootIdx s c :=
      rootIdx_of_shadowEq s S3 c hwf
        (fun t ht => hshs3 t (Nat.lt_of_le_of_lt ht hc))
    obtain ⟨k1, k2, k3, k4, k5, k6, k7, k8, k9, ⟨Δ2, hΔ21, hΔ22⟩, k11⟩ :=
      ihk S3 c hwf3 hc3 hin3
    set r2 := runProg m S3 (some c) (k none) with hr2
    have hmt : mTransaction m s (some c) body = finishFrame r1 s.nodes.length := by
      simp only [mTransaction, henter]
    have hmtout : (mTransaction m s (some c) body).outcome = .ok none := by
      rw [hmt, hff]
      exact b1
    have hmt_st : (mTransaction m s (some c) body).st = S3 := by rw [hmt, hff]
    have hmt_ev : (mTransaction m s (some c) body).events = r1.events := by
      rw [hmt, hff]
    have hmt_pr : (mTransaction m s (some c) body).probes = r1.probes := by
      rw [hmt, hff]
    have hmt_lk : (mTransaction m s (some c) body).leaked = r1.leaked := by
      rw [hmt, hff]
    have hbr := runProg_trans_ok m s (some c) body k none hmtout
    rw [hmt_st, hmt_ev, hmt_pr, hmt_lk, ← hr2] at hbr
    rw [hbr]
    have hRlt : rootIdx s c < s.nodes.length := rootIdx_lt_len s hwf c hc
    refine ⟨k1, ?_, ?_, ?_, ?_, ?_, k7, ?_, ?_, ?_, ?_⟩
    · show r1.events ++ r2.events = []
      rw [b2, k2]
      rfl
    · show r1.probes ++ r2.probes = _
      rw [b3, k3, ← List.replicate_add]
      rfl
    · show (r1.leaked ++ r2.leaked).length = _
      rw [List.length_append, b4, k4]
      rfl
    · intro x hx
      rcases List.mem_append.mp hx with hx | hx
      · obtain ⟨j, hj1, hj2, hj3⟩ := b5 x hx
        have hjS3 : j < S3.nodes.length := by rw [hlen3]; exact hj2
        refine ⟨j, hj1, Nat.lt_of_lt_of_le hjS3 k6, ?_⟩
        have e1 : rootIdx r2.st j = rootIdx S3 j :=
          rootIdx_of_shadowEq S3 r2.st j hwf3
            (fun t ht => k8 t (Nat.lt_of_le_of_lt ht hjS3))
        have e2 : rootIdx S3 j = rootIdx r1.st j :=
          rootIdx_of_pshadowEq r1.st S3 j b7 (fun t _ => hps3 t)
        rw [e1, e2, hj3, hroot1]
      · obtain ⟨j, hj1, hj2, hj3⟩ := k5 x hx
        exact ⟨j, hj1, hj2, by rw [hj3, hroot3]⟩
    · calc s.nodes.length ≤ r1.st.nodes.length := hlen_s_r1
        _ = S3.nodes.length := hlen3.symm
        _ ≤ r2.st.nodes.length := k6
    · intro t ht
      have htS3 : t < S3.nodes.length := by
        rw [hlen3]
        exact Nat.lt_of_lt_of_le ht hlen_s_r1
      rw [k8 t htS3, hshs3 t ht]
    · intro t n ht hn
      by_cases htS3 : t < S3.nodes.length
      · have hsh := k8 t htS3
        have hS3t : shadow S3 t = some (n.parent, n.done, n.panicked, n.err) := by
          rw [← hsh, shadow, hn, Option.map_some']
        obtain ⟨n', hn', hp', hd', hpk', he'⟩ :=
          shadow_inv S3 t _ _ _ _ hS3t
        by_cases ht0 : t = s.nodes.length
        · subst ht0
          rw [hnB] at hn'
          injection hn' with hne
          subst hne
          exact ⟨by rw [← hpk'], by rw [← he']⟩
        · have htS1 : S1.nodes.length ≤ t := by rw [hlen1]; omega
          have hsh31 : shadow S3 t = shadow r1.st t := hsh3ne t ht0
          have hS3t' : shadow r1.st t =
              some (n'.parent, n'.done, n'.panicked, n'.err) := by
            rw [← hsh31, shadow, hn', Option.map_some']
          obtain ⟨n'', hn'', hp'', hd'', hpk'', he''⟩ :=
            shadow_inv r1.st t _ _ _ _ hS3t'
          obtain ⟨hg1, hg2⟩ := b9 t n'' htS1 hn''
          exact ⟨by rw [← hpk', ← hpk'']; exact hg1,
            by rw [← he', ← he'']; exact hg2⟩
      · exact k9 t n (Nat.le_of_not_lt htS3) hn
    · have hcs1 : commitCBs S1 (rootIdx s c) = commitCBs s (rootIdx s c) := by
        rw [commitCBs, commitCBs, hkeep _ hRlt]
      rw [hroot1] at hΔ11
      rw [hroot3] at hΔ21
      refine ⟨Δ1 ++ Δ2, ?_, ?_⟩
      · show commitCBs r2.st (rootIdx s c) = _
        rw [hΔ21, hregs3 (rootIdx s c), hΔ11, hcs1, List.append_assoc]
      · rw [List.map_append, hΔ12, hΔ22]
        rfl
    · intro t ht hne
      have htS3 : t < S3.nodes.length := by
        rw [hlen3]
        exact Nat.lt_of_lt_of_le ht hlen_s_r1
      show commitCBs r2.st t = commitCBs s t
      rw [k11 t htS3 (by rw [hroot3]; exact hne), hregs3 t,
        b11 t (Nat.lt_trans ht hn0lt) (by rw [hroot1]; exact hne),
        commitCBs, commitCBs, hkeep t ht]

/-! ## Cascade event inventories -/

theorem all_eq_false_of_mem {α : Type} (l : List α) (p : α → Bool) (x : α)
    (hx : x ∈ l) (hp : p x = false) : l.all p = false := by
  cases h : l.all p with
  | false => rfl
  | true =>
    rw [List.all_eq_true] at h
    have := h x hx
    rw [hp] at this
    exact this.symm

/-- Every event produced by the commit half of the cascade is a `committed`
event of a registered entry. -/
theorem mem_commit_flatten (s' : State) (l : List CommitCB) (x : Event)
    (h : x ∈ (l.map (runCommitCB s')).flatten) :
    ∃ cb ∈ l, x = .committed cb.user := by
  obtain ⟨ys, hys, hmem⟩ := List.mem_join.mp h
  obtain ⟨cb, hcb, rfl⟩ := List.mem_map.mp hys
  refine ⟨cb, hcb, ?_⟩
  unfold runCommitCB at hmem
  by_cases hall : (cb.guards.all fun g => isCommittedFuel s' (g + 1) g) = true
  · rw [if_pos hall] at hmem
    exact (List.mem_singleton.mp hmem)
  · rw [if_neg hall] at hmem
    exact absurd hmem (List.not_mem_nil x)

/-- Every event produced by the rollback half of the cascade is a
`rollbacked` event of a registered entry, carrying that entry's
`isRollbacked()` result. -/
theorem mem_rollback_flatten (s' : State) (l : List RollbackCB) (x : Event)
    (h : x ∈ (l.map (runRollbackCB s')).flatten) :
    ∃ cb ∈ l, ∃ e', isRollbackedFuel s' (cb.node + 1) cb.node = some e' ∧
      x = .rollbacked cb.user e' := by
  obtain ⟨ys, hys, hmem⟩ := List.mem_join.mp h
  obtain ⟨cb, hcb, rfl⟩ := List.mem_map.mp hys
  refine ⟨cb, hcb, ?_⟩
  unfold runRollbackCB at hmem
  cases hr : isRollbackedFuel s' (cb.node + 1) cb.node with
  | none =>
    rw [hr] at hmem
    exact absurd hmem (List.not_mem_nil x)
  | some e' =>
    rw [hr] at hmem
    exact ⟨e', rfl, List.mem_singleton.mp hmem⟩

/-- `isRollbacked()` of a root node is exactly its own recorded error. -/
theorem isRollbacked_root_err (st : State) (R : Nat) (nZ : Node)
    (h1 : st.node? R = some nZ) (h3 : nZ.parent = none) :
    isRollbackedFuel st (R + 1) R = nZ.err := by
  cases h2 : nZ.err with
  | some e' => simp [isRollbackedFuel, h1, h2]
  | none => simp [isRollbackedFuel, h1, h2, h3]

/-- `isCommitted()` of a panicked node is false. -/
theorem isCommitted_panicked (st : State) (R : Nat) (nZ : Node)
    (h1 : st.node? R = some nZ) (h2 : nZ.panicked = true) :
    isCommittedFuel st (R + 1) R = false := by
  simp [isCommittedFuel, h1, h2]

/-- A registered rollback entry whose node reports a non-nil error fires. -/
theorem rollback_flatten_mem (s' : State) (l : List RollbackCB)
    (cb : RollbackCB) (e' : Err) (hcb : cb ∈ l)
    (hr : isRollbackedFuel s' (cb.node + 1) cb.node = some e') :
    Event.rollbacked cb.user e' ∈ (l.map (runRollbackCB s')).flatten := by
  refine List.mem_join_of_mem (List.mem_map.mpr ⟨cb, hcb, rfl⟩) ?_
  rw [runRollbackCB, hr]
  exact List.mem_singleton.mpr rfl

/-! ## Concrete fixtures for the claim theorems -/

/-- A provider that routes one database (handle `0`) for every context and
whose physical begin succeeds. -/
def mEx : Mgr := ⟨fun _ => some 0, none⟩

/-- A provider with no database routed for any context. -/
def mNone : Mgr := ⟨fun _ => none, none⟩

/-- A provider that routes a database but whose physical begin fails with
error `9`. -/
def mFail : Mgr := ⟨fun _ => some 0, some (.mk 9)⟩

/-- The empty initial state: no nodes, no physical transaction begun. -/
def s0 : State := ⟨[], 0⟩

/-- The state right after the outermost `Transaction` on `mEx` from `s0` has
begun: one root node, handle `1`, pessimistic `panicked` default. -/
def s1Ex : State :=
  ⟨[{ parent := none, db := 1, done := false, panicked := true, err := none,
      onCommittedCallbacks := [], onRollbackedCallbacks := [] }], 1⟩

theorem WF_s1Ex : WF s1Ex := by
  intro i n q h1 h2
  match i with
  | 0 =>
    injection h1 with h1
    rw [← h1] at h2
    exact Option.noConfusion h2
  | (i + 1) => exact Option.noConfusion h1

theorem enterTrans_mEx_s0 :
    enterTrans mEx s0 none = .frame s1Ex 0 := rfl

/-- A state whose single (root) node has ended: `done = true`, no error. -/
def sEnded : State :=
  ⟨[{ parent := none, db := 0, done := true, panicked := false, err := none,
      onCommittedCallbacks := [], onRollbackedCallbacks := [] }], 1⟩

/-- A two-node chain: root `0` and its child `1`, both still open. -/
def sChain : State :=
  ⟨[{ parent := none, db := 0, done := false, panicked := true, err := none,
      onCommittedCallbacks := [], onRollbackedCallbacks := [] },
    { parent := some 0, db := 0, done := false, panicked := true, err := none,
      onCommittedCallbacks := [], onRollbackedCallbacks := [] }], 1⟩

theorem WF_sChain : WF sChain := by
  intro i n q h1 h2
  match i with
  | 0 =>
    injection h1 with h1
    rw [← h1] at h2
    exact Option.noConfusion h2
  | 1 =>
    injection h1 with h1
    rw [← h1] at h2
    injection h2 with h2
    rw [← h2]
    exact Nat.zero_lt_one
  | (i + 2) => exact Option.noConfusion h1

/-! ## The claims -/

/-- C3: a `Transaction` call while an active node exists for the resource
never requests a second physical begin (`begun` unchanged), passes the
existing node's handle through the provider (which invokes the callback
directly), and the child node holds that same handle. -/
theorem claim_C3 (m : Mgr) (s : State) (ctx : Ctx) (c : Nat)
    (hf : findTransContext ctx = some c)
    (hin : tcInTransaction s (some c) = true) :
    enterTrans m s ctx =
      .frame (tcStart s (some c) (nodeDb s c)).1 s.nodes.length ∧
    (tcStart s (some c) (nodeDb s c)).1.begun = s.begun ∧
    (tcStart s (some c) (nodeDb s c)).1.node? s.nodes.length =
      some { parent := some c, db := nodeDb s c, done := false,
             panicked := true, err := none, onCommittedCallbacks := [],
             onRollbackedCallbacks := [] } := by
  have hctx : ctx = some c := hf
  subst hctx
  exact ⟨enterTrans_nested m s c hin, rfl,
    node?_tcStart_new s (some c) (nodeDb s c)⟩

/-- Witness for C3 at a concrete active state. -/
theorem claim_C3_witness :
    enterTrans mEx s1Ex (some 0) =
      .frame (tcStart s1Ex (some 0) (nodeDb s1Ex 0)).1 s1Ex.nodes.length ∧
    (tcStart s1Ex (some 0) (nodeDb s1Ex 0)).1.begun = s1Ex.begun ∧
    (tcStart s1Ex (some 0) (nodeDb s1Ex 0)).1.node? s1Ex.nodes.length =
      some { parent := some 0, db := nodeDb s1Ex 0, done := false,
             panicked := true, err := none, onCommittedCallbacks := [],
             onRollbackedCallbacks := [] } :=
  claim_C3 mEx s1Ex (some 0) 0 rfl (by decide)

/-- C6: with no active node and no routed database, `Transaction` panics with
`"matching database not found"` instead of returning an error; the state is
untouched and nothing fires. -/
theorem claim_C6 (m : Mgr) (s : State) (ctx : Ctx) (body : Prog)
    (hin : mInTransaction s ctx = false) (hlook : m.lookup ctx = none) :
    mTransaction m s ctx body =
      ⟨s, [], [], [], .panicked (.pstr "matching database not found")⟩ := by
  have hfd : findDBAndTransContext m s ctx =
      .error (.pstr "matching database not found") := by
    cases hctx : findTransContext ctx with
    | none => simp only [findDBAndTransContext, hctx, hlook]
    | some i =>
      have hin' : tcInTransaction s (some i) = false := by
        rw [mInTransaction, hctx] at hin
        exact hin
      simp only [findDBAndTransContext, hctx, hin', Bool.false_eq_true,
        if_false, hlook]
  simp only [mTransaction, enterTrans, hfd]

/-- Witness for C6. -/
theorem claim_C6_witness :
    mTransaction mNone s0 none (.ret none) =
      ⟨s0, [], [], [], .panicked (.pstr "matching database not found")⟩ :=
  claim_C6 mNone s0 none (.ret none) rfl rfl

/-- C7: escaping from inside an active transaction hands the callback the
cleaned context, on which `InTransaction` is false and both registrations
fail, while the original context still reports `InTransaction` true. -/
theorem claim_C7 (s : State) (ctx : Ctx) (u : Nat) (f : Ctx → Option Err)
    (hin : mInTransaction s ctx = true) :
    mEscapeTransaction s ctx f = f none ∧
    cleanTransContext s ctx = none ∧
    mInTransaction s (cleanTransContext s ctx) = false ∧
    mOnCommitted s (cleanTransContext s ctx) u = (s, false) ∧
    mOnRollbacked s (cleanTransContext s ctx) u = (s, false) ∧
    mInTransaction s ctx = true := by
  have hin' : tcInTransaction s (findTransContext ctx) = true := hin
  have hclean : cleanTransContext s ctx = none := by
    rw [cleanTransContext, if_pos hin']
  refine ⟨?_, hclean, ?_, ?_, ?_, hin⟩
  · rw [mEscapeTransaction, hclean]
  · rw [hclean]; rfl
  · rw [hclean]; rfl
  · rw [hclean]; rfl

/-- Witness for C7. -/
theorem claim_C7_witness :
    mEscapeTransaction s1Ex (some 0) (fun _ => none) = none ∧
    cleanTransContext s1Ex (some 0) = none ∧
    mInTransaction s1Ex (cleanTransContext s1Ex (some 0)) = false ∧
    mOnCommitted s1Ex (cleanTransContext s1Ex (some 0)) 5 = (s1Ex, false) ∧
    mOnRollbacked s1Ex (cleanTransContext s1Ex (some 0)) 5 = (s1Ex, false) ∧
    mInTransaction s1Ex (some 0) = true :=
  claim_C7 s1Ex (some 0) 5 (fun _ => none) (by decide)

/-- C9: on a present-but-inactive node `OnCommitted` fails while
`OnRollbacked` still succeeds; `OnRollbacked` fails only when the node is
absent entirely. -/
theorem claim_C9 :
    (∀ (s : State) (ctx : Ctx) (c u : Nat), findTransContext ctx = some c →
      mInTransaction s ctx = false →
      (mOnCommitted s ctx u).2 = false ∧ (mOnRollbacked s ctx u).2 = true) ∧
    (∀ (s : State) (ctx : Ctx) (u : Nat), findTransContext ctx = none →
      (mOnRollbacked s ctx u).2 = false) := by
  constructor
  · intro s ctx c u hf hin
    have hctx : ctx = some c := hf
    subst hctx
    have hin' : tcInTransaction s (some c) = false := hin
    constructor
    · simp only [mOnCommitted, findTransContext, hin', Bool.false_eq_true,
        if_false]
    · rfl
  · intro s ctx u hf
    have hctx : ctx = none := hf
    subst hctx
    rfl

/-- Witness for C9: the ended root of `sEnded` is present but inactive. -/
theorem claim_C9_witness :
    ((mOnCommitted sEnded (some 0) 5).2 = false ∧
     (mOnRollbacked sEnded (some 0) 5).2 = true) ∧
    (mOnRollbacked sEnded none 5).2 = false :=
  ⟨claim_C9.1 sEnded (some 0) 0 5 rfl (by decide),
   claim_C9.2 sEnded none 5 rfl⟩

/-- C10: when the physical begin fails with `e` before the inner callback
runs, `Transaction` returns exactly `e`, creates no node, fires nothing, and
`End` on the absent (`nil`) node is a no-op. -/
theorem claim_C10 (m : Mgr) (s : State) (ctx : Ctx) (body : Prog) (d : Nat)
    (e : Err) (hin : mInTransaction s ctx = false)
    (hlook : m.lookup ctx = some d) (hfail : m.beginFail = some e) :
    mTransaction m s ctx body =
      ⟨{ s with begun := s.begun + 1 }, [], [], [], .ok (some e)⟩ ∧
    ({ s with begun := s.begun + 1 } : State).nodes = s.nodes ∧
    (∀ pk er, tcEnd s none pk er = (s, [])) := by
  have hfd : findDBAndTransContext m s ctx = .ok (none, d) := by
    cases hctx : findTransContext ctx with
    | none => simp only [findDBAndTransContext, hctx, hlook]
    | some i =>
      have hin' : tcInTransaction s (some i) = false := by
        rw [mInTransaction, hctx] at hin
        exact hin
      simp only [findDBAndTransContext, hctx, hin', Bool.false_eq_true,
        if_false, hlook]
  have henter : enterTrans m s ctx =
      .beginErr { s with begun := s.begun + 1 } e := by
    simp only [enterTrans, hfd, hin, Bool.false_eq_true, if_false, hfail]
  exact ⟨by simp only [mTransaction, henter], rfl, fun pk er => rfl⟩

/-- Witness for C10. -/
theorem claim_C10_witness :
    mTransaction mFail s0 none (.ret none) =
      ⟨{ s0 with begun := s0.begun + 1 }, [], [], [], .ok (some (.mk 9))⟩ ∧
    ({ s0 with begun := s0.begun + 1 } : State).nodes = s0.nodes ∧
    (∀ pk er, tcEnd s0 none pk er = (s0, [])) :=
  claim_C10 mFail s0 none (.ret none) 0 (.mk 9) rfl rfl rfl

/-- A nested scope that registers rollback callback `7` and returns error
`.mk 1`, whose error the outer callback swallows (it returns `nil`). -/
def bodyC1 : Prog :=
  .trans (.onRollbacked 7 (.ret (some (.mk 1)))) (fun _ => .ret none)

/-- C1 fails on the code: in the `bodyC1` run the registration node is the
nested node `1`; at cascade time the first non-nil error walking from node
`1` toward the root is `.mk 1` (second conjunct), so the claim predicts that
callback `7` fires with `.mk 1` — but the run fires no event at all (first
conjunct), because `OnRollbacked` forwards the raw callback to the root and
the stored wrapper checks the ROOT's `isRollbacked()`, which is `nil` after
the outer callback returns `nil`. -/
theorem claim_C1_counterexample :
    (mTransaction mEx s0 none bodyC1).events = [] ∧
    isRollbackedFuel (mTransaction mEx s0 none bodyC1).st 2 1 =
      some (.mk 1) ∧
    (mTransaction mEx s0 none bodyC1).outcome = .ok none := by
  decide

/-- C1 amended: a callback registered via `OnRollbacked` on node `c` is
stored at the root `R` of `c`'s chain with a wrapper closing over `R`
itself; at cascade time (`End` on `R` with error `er`) it fires iff the
ROOT's recorded error `er` is non-nil, and it receives exactly that error —
the errors recorded at the registration node and intermediate ancestors are
never consulted. -/
theorem claim_C1_amended (s : State) (c u : Nat) (pk : Bool)
    (er : Option Err) (e : Err) (hwf : WF s) (hc : c < s.nodes.length)
    (hfresh : ∀ cb ∈ rollbackCBs s (rootIdx s c), cb.user ≠ u) :
    (Event.rollbacked u e ∈
      (tcEnd (mOnRollbacked s (some c) u).1 (some (rootIdx s c)) pk er).2
     ↔ er = some e) := by
  obtain ⟨nR, hnR, heq⟩ :=
    onRollbackedFuel_spec s hwf c hc (c + 1) (Nat.lt_succ_self c) u
  obtain ⟨-, nR2, hnR2, hpar2⟩ := rootIdx_spec s hwf c hc
  have hnReq : nR2 = nR := by
    rw [hnR] at hnR2
    exact (Option.some_inj.mp hnR2).symm
  rw [hnReq] at hpar2
  set nRx : Node := { nR with onRollbackedCallbacks := nR.onRollbackedCallbacks ++ [⟨rootIdx s c, u⟩] } with hnRxdef
  set nRy : Node := { nRx with panicked := pk, err := er } with hnRydef
  have hreg : (mOnRollbacked s (some c) u).1 =
      pushRollback s (rootIdx s c) nR ⟨rootIdx s c, u⟩ := by
    rw [mOnRollbacked_some s c u, heq]
  rw [hreg]
  have hnRx : (pushRollback s (rootIdx s c) nR ⟨rootIdx s c, u⟩).node?
      (rootIdx s c) = some nRx :=
    node?_setNode_self s (rootIdx s c) _ (node?_some_lt s (rootIdx s c) nR hnR)
  have hparx : nRx.parent = none := hpar2
  rw [tcEnd_root _ (rootIdx s c) _ hnRx hparx pk er]
  have hs'R : ((pushRollback s (rootIdx s c) nR ⟨rootIdx s c, u⟩).setNode
      (rootIdx s c) nRy).node? (rootIdx s c) = some nRy := by
    refine node?_setNode_self _ (rootIdx s c) _ ?_
    rw [len_pushRollback]
    exact node?_some_lt s (rootIdx s c) nR hnR
  have hery : nRy.err = er := rfl
  have hpary : nRy.parent = none := hpar2
  have hroll : isRollbackedFuel
      ((pushRollback s (rootIdx s c) nR ⟨rootIdx s c, u⟩).setNode
        (rootIdx s c) nRy)
      (rootIdx s c + 1) (rootIdx s c) = er :=
    (isRollbacked_root_err _ _ _ hs'R hpary).trans hery
  have hregsy : nRy.onRollbackedCallbacks =
      nR.onRollbackedCallbacks ++ [⟨rootIdx s c, u⟩] := rfl
  constructor
  · intro hmem
    rcases List.mem_append.mp hmem with hmem | hmem
    · obtain ⟨cb, -, hbad⟩ := mem_commit_flatten _ _ _ hmem
      exact absurd hbad (by intro h; exact Event.noConfusion h)
    · obtain ⟨cb, hcb, e', hre', hx⟩ := mem_rollback_flatten _ _ _ hmem
      rw [hregsy] at hcb
      rcases List.mem_append.mp hcb with hcb | hcb
      · have hne : cb.user ≠ u := by
          refine hfresh cb ?_
          rw [rollbackCBs, hnR]
          exact hcb
        injection hx with hx1 hx2
        exact absurd hx1.symm hne
      · have hcbeq : cb = ⟨rootIdx s c, u⟩ := List.mem_singleton.mp hcb
        subst hcbeq
        rw [hroll] at hre'
        injection hx with hx1 hx2
        rw [hre', hx2]
  · intro her
    subst her
    refine List.mem_append_right _ ?_
    refine rollback_flatten_mem _ _ ⟨rootIdx s c, u⟩ e ?_ (by rw [hroll])
    rw [hregsy]
    exact List.mem_append_right _ (List.mem_singleton.mpr rfl)

/-- Witness for the amended C1: registration on the child of `sChain`, root
`End` with error `.mk 3`. -/
theorem claim_C1_amended_witness :
    (Event.rollbacked 9 (Err.mk 3) ∈
      (tcEnd (mOnRollbacked sChain (some 1) 9).1 (some (rootIdx sChain 1))
        false (some (Err.mk 3))).2
     ↔ some (Err.mk 3) = some (Err.mk 3)) :=
  claim_C1_amended sChain 1 9 false (some (.mk 3)) (.mk 3) WF_sChain
    (by decide) (by decide)

/-- One commit registration at the root, successful outer callback. -/
def bodyC8 : Prog := .onCommitted 3 (.ret none)

/-- C8 fails on the code: after the cascade has fired (`.committed 3` was
emitted), the root's commit registry still holds its single entry — the
cascade copies and invokes the callbacks but never clears either list. -/
theorem claim_C8_counterexample :
    (mTransaction mEx s0 none bodyC8).events = [.committed 3] ∧
    (commitCBs (mTransaction mEx s0 none bodyC8).st 0).length = 1 := by
  decide

/-- C8 amended: the root registries persist until the cascade fires, and the
cascade (`End`) leaves both registries of every node exactly as they were —
they are never drained. -/
theorem claim_C8_amended (s : State) (t : Option Nat) (pk : Bool)
    (er : Option Err) :
    ∀ j, commitCBs (tcEnd s t pk er).1 j = commitCBs s j ∧
      rollbackCBs (tcEnd s t pk er).1 j = rollbackCBs s j :=
  tcEnd_regs s t pk er

/-- C2: an outermost `Transaction` whose callback run panics with payload `p`
(`r` is the run of the body in the freshly started frame, `n0` the root
node): the call re-raises the original panic unchanged in every case; when
the root's rollback registry (as it stands at defer time) is empty the panic
is not intercepted and no callback fires; when it is non-empty the panic is
recovered, the payload is converted to an error (`convertPayload` wraps
non-error payloads), `End(true, err)` fires the cascade — every registered
rollback callback fires with exactly that error, no commit callback fires —
and the panic is then re-raised.  The hypotheses `hcomm`/`hreg` record the
wrapper shape every registration made through the manager has (commit guards
include the root; rollback entries close over the root). -/
theorem claim_C2 (m : Mgr) (s : State) (ctx : Ctx) (body : Prog) (d : Nat)
    (p : Payload) (s1 : State) (n0 : Nat) (r : RunRes)
    (hfind : findTransContext ctx = none)
    (hlook : m.lookup ctx = some d)
    (hbegin : m.beginFail = none)
    (hstart : tcStart { s with begun := s.begun + 1 } none (d + 1) = (s1, n0))
    (hrun : runProg m s1 (some n0) body = r)
    (hpanic : r.outcome = .panicked p)
    (hcomm : ∀ cb ∈ commitCBs r.st n0, n0 ∈ cb.guards)
    (hreg : ∀ cb ∈ rollbackCBs r.st n0, cb.node = n0) :
    (mTransaction m s ctx body).outcome = .panicked p ∧
    (rollbackCBs r.st n0 = [] →
      (mTransaction m s ctx body).events = r.events) ∧
    (rollbackCBs r.st n0 ≠ [] →
      (mTransaction m s ctx body).events = r.events ++
        (rollbackCBs r.st n0).map
          (fun cb => Event.rollbacked cb.user (convertPayload p))) := by
  have hmin : mInTransaction s ctx = false := by
    rw [mInTransaction, hfind]
    rfl
  have hfd : findDBAndTransContext m s ctx = .ok (none, d) := by
    simp only [findDBAndTransContext, hfind, hlook]
  have henter : enterTrans m s ctx = .frame s1 n0 := by
    simp only [enterTrans, hfd, hmin, Bool.false_eq_true, if_false, hbegin,
      hstart]
  have hmt : mTransaction m s ctx body = finishFrame r n0 := by
    simp only [mTransaction, henter, hrun]
  obtain ⟨hlenp, hpsp⟩ := runProg_pres m body s1 (some n0)
  rw [hrun] at hlenp hpsp
  injection hstart with hs1 hn0
  have hnew : s1.node? n0 = some
      { parent := none, db := d + 1, done := false, panicked := true,
        err := none, onCommittedCallbacks := [],
        onRollbackedCallbacks := [] } := by
    rw [← hs1, ← hn0]
    exact node?_tcStart_new { s with begun := s.begun + 1 } none (d + 1)
  have hn0lt : n0 < s1.nodes.length := by
    rw [← hs1, ← hn0]
    simp
  have hps1 : pshadow s1 n0 = some none := by
    rw [pshadow, hnew, Option.map_some']
  have hpsr : pshadow r.st n0 = some none := by
    rw [hpsp n0 hn0lt, hps1]
  obtain ⟨nr, hnr, hnrpar⟩ := pshadow_inv r.st n0 none hpsr
  have hnrlt : n0 < r.st.nodes.length := node?_some_lt r.st n0 nr hnr
  have hsD : setDoneNode r.st n0 = r.st.setNode n0 { nr with done := true } :=
    setDoneNode_eq r.st n0 nr hnr
  have hnrD : (setDoneNode r.st n0).node? n0 = some { nr with done := true } := by
    rw [hsD]
    exact node?_setNode_self r.st n0 _ hnrlt
  have hregsD : rollbackCBs (setDoneNode r.st n0) n0 = rollbackCBs r.st n0 :=
    (setDoneNode_regs r.st n0 n0).2
  refine ⟨?_, ?_, ?_⟩
  · rw [hmt]
    by_cases hni : rollbackCBs r.st n0 = []
    · have hempty : (rollbackCBs (setDoneNode r.st n0) n0).isEmpty = true := by
        rw [hregsD, hni]
        rfl
      rw [finishFrame_panic_noreg r n0 p hpanic hempty]
      exact hpanic
    · have hempty : (rollbackCBs (setDoneNode r.st n0) n0).isEmpty = false := by
        rw [hregsD]
        exact List.isEmpty_eq_false.mpr hni
      rw [finishFrame_panic_reg r n0 p hpanic hempty]
      exact hpanic
  · intro hni
    have hempty : (rollbackCBs (setDoneNode r.st n0) n0).isEmpty = true := by
      rw [hregsD, hni]
      rfl
    rw [hmt, finishFrame_panic_noreg r n0 p hpanic hempty]
  · intro hni
    have hempty : (rollbackCBs (setDoneNode r.st n0) n0).isEmpty = false := by
      rw [hregsD]
      exact List.isEmpty_eq_false.mpr hni
    rw [hmt, finishFrame_panic_reg r n0 p hpanic hempty]
    set nrD : Node := { nr with done := true } with hnrDdef
    set nrP : Node := { nrD with panicked := true, err := some (convertPayload p) } with hnrPdef
    have hEnd := tcEnd_root (setDoneNode r.st n0) n0 nrD hnrD hnrpar true
      (some (convertPayload p))
    rw [hEnd]
    set sP : State := (setDoneNode r.st n0).setNode n0 nrP with hsPdef
    have hn' : sP.node? n0 = some nrP := by
      refine node?_setNode_self _ n0 _ ?_
      rw [hsD, len_setNode]
      exact hnrlt
    have hccm : commitCBs r.st n0 = nr.onCommittedCallbacks := by
      rw [commitCBs, hnr]
    have hrcm : rollbackCBs r.st n0 = nr.onRollbackedCallbacks := by
      rw [rollbackCBs, hnr]
    have hfalse : isCommittedFuel sP (n0 + 1) n0 = false :=
      isCommitted_panicked sP n0 nrP hn' rfl
    have hevC : (nrP.onCommittedCallbacks.map (runCommitCB sP)).flatten = [] := by
      refine flatten_map_of_nil _ _ ?_
      intro cb hcb
      have hmem : cb ∈ commitCBs r.st n0 := by
        rw [hccm]
        exact hcb
      have hall := all_eq_false_of_mem cb.guards
        (fun g => isCommittedFuel sP (g + 1) g) n0 (hcomm cb hmem) hfalse
      simp [runCommitCB, hall]
    have hroll : isRollbackedFuel sP (n0 + 1) n0 = some (convertPayload p) :=
      isRollbacked_root_err sP n0 nrP hn' hnrpar
    have hevR : (nrP.onRollbackedCallbacks.map (runRollbackCB sP)).flatten =
        (rollbackCBs r.st n0).map
          (fun cb => Event.rollbacked cb.user (convertPayload p)) := by
      have hlist : nrP.onRollbackedCallbacks = rollbackCBs r.st n0 := hrcm.symm
      rw [hlist]
      refine flatten_map_of_eq _ _ _ ?_
      intro cb hcb
      have hnode : cb.node = n0 := hreg cb hcb
      rw [runRollbackCB, hnode, hroll]
    show r.events ++ (_ ++ _) = _
    rw [hevC, hevR, List.nil_append]

/-- Everything an outermost `Transaction` of a `NoFail` body on the
one-resource provider does: returns `nil`, fires exactly the registered
commit callbacks in registration order and nothing else, answers `true` to
every `InTransaction` query made during the run, and leaves every retained
context reporting `InTransaction` false afterwards. -/
theorem nfOuter (body : Prog) (h : NoFail body) :
    (mTransaction mEx s0 none body).outcome = .ok none ∧
    (mTransaction mEx s0 none body).events =
      (commitRegs body).map Event.committed ∧
    (mTransaction mEx s0 none body).probes =
      List.replicate (probeCount body) true ∧
    (mTransaction mEx s0 none body).leaked.length = leakCount body ∧
    (∀ x ∈ (mTransaction mEx s0 none body).leaked,
      mInTransaction (mTransaction mEx s0 none body).st x = false) := by
  obtain ⟨o1, o2, o3, o4, o5, o6, o7, o8, o9, ⟨Δ, hΔ1, hΔ2⟩, o11⟩ :=
    nfRun mEx body h s1Ex 0 WF_s1Ex (by decide) (by decide)
  set r1 := runProg mEx s1Ex (some 0) body with hr1
  have hmt : mTransaction mEx s0 none body = finishFrame r1 0 := by
    simp only [mTransaction, enterTrans_mEx_s0]
  have hsh0 : shadow r1.st 0 = some (none, false, true, none) := by
    rw [o8 0 (by decide)]
    rfl
  obtain ⟨nr, hnr, hnrpar, hnrdone, hnrpk, hnrerr⟩ :=
    shadow_inv r1.st 0 none false true none hsh0
  have hff := finishFrame_ok r1 0 none o1
  have hEnd := tcEnd_root r1.st 0 nr hnr hnrpar false none
  set nrA : Node := { nr with panicked := false, err := none } with hnrA
  set sA : State := r1.st.setNode 0 nrA with hsA
  have hnrAmem : sA.node? 0 = some nrA :=
    node?_setNode_self r1.st 0 nrA (node?_some_lt r1.st 0 nr hnr)
  have hg : AllGood sA := by
    intro i nI hnI
    by_cases hi : i = 0
    · subst hi
      rw [hnrAmem] at hnI
      injection hnI with hnI
      rw [← hnI]
      exact ⟨rfl, rfl⟩
    · rw [hsA, node?_setNode_ne r1.st 0 i nrA hi] at hnI
      have hge : s1Ex.nodes.length ≤ i := Nat.one_le_iff_ne_zero.mpr hi
      exact o9 i nI hge hnI
  have hΔ1' : commitCBs r1.st 0 = [] ++ Δ := hΔ1
  have hreg1 : nr.onCommittedCallbacks = Δ := by
    have h1 : commitCBs r1.st 0 = nr.onCommittedCallbacks := by
      rw [commitCBs, hnr]
    rw [← h1, hΔ1', List.nil_append]
  have hevC : ((nr.onCommittedCallbacks).map (runCommitCB sA)).flatten =
      (commitRegs body).map Event.committed := by
    rw [hreg1, flatten_map_of_eq Δ (runCommitCB sA)
      (fun cb => Event.committed cb.user)
      (fun cb _ => runCommitCB_allgood sA hg cb), ← hΔ2, List.map_map]
    rfl
  have hevR : ((nr.onRollbackedCallbacks).map (runRollbackCB sA)).flatten = [] :=
    flatten_map_of_nil _ _ (fun cb _ => runRollbackCB_allgood sA hg cb)
  have hst2 : (tcEnd r1.st (some 0) false none).1 = sA := by rw [hEnd]
  have hev2 : (tcEnd r1.st (some 0) false none).2 =
      ((nr.onCommittedCallbacks).map (runCommitCB sA)).flatten ++
        ((nr.onRollbackedCallbacks).map (runRollbackCB sA)).flatten := by
    rw [hEnd]
  have hFeq : setDoneNode sA 0 =
      r1.st.setNode 0 ({ nrA with done := true }) := by
    rw [setDoneNode_eq sA 0 nrA hnrAmem, hsA, setNode_setNode]
  refine ⟨?_, ?_, ?_, ?_, ?_⟩
  · rw [hmt, hff]
    exact o1
  · rw [hmt, hff]
    show r1.events ++ (tcEnd r1.st (some 0) false none).2 = _
    rw [hev2, o2, hevC, hevR, List.append_nil, List.nil_append]
  · rw [hmt, hff]
    exact o3
  · rw [hmt, hff]
    exact o4
  · intro x hx
    rw [hmt, hff] at hx
    have hx' : x ∈ r1.leaked := hx
    obtain ⟨j, hj1, hj2, hj3⟩ := o5 x hx'
    subst hj1
    rw [hmt, hff]
    show mInTransaction
      (setDoneNode (tcEnd r1.st (some 0) false none).1 0) (some j) = false
    rw [hst2, hFeq]
    have hwfF : WF (r1.st.setNode 0 ({ nrA with done := true })) :=
      WF_setNode r1.st 0 nr _ hnr rfl o7
    have hjF : j < (r1.st.setNode 0 ({ nrA with done := true })).nodes.length := by
      rw [len_setNode]
      exact hj2
    have hnBmem : (r1.st.setNode 0 ({ nrA with done := true })).node? 0 =
        some ({ nrA with done := true }) :=
      node?_setNode_self r1.st 0 _ (node?_some_lt r1.st 0 nr hnr)
    have hdone : doneOf (r1.st.setNode 0 ({ nrA with done := true })) 0 = true := by
      simp [doneOf, hnBmem]
    have hj3' : rootIdx r1.st j = 0 := hj3
    have hroot : rootIdx (r1.st.setNode 0 ({ nrA with done := true })) j = 0 := by
      rw [rootIdx_of_pshadowEq r1.st (r1.st.setNode 0 ({ nrA with done := true }))
        j o7
        (fun t _ => pshadow_setNode r1.st 0 nr ({ nrA with done := true }) hnr
          rfl t), hj3']
    show inTransFuel (r1.st.setNode 0 ({ nrA with done := true })) (j + 1) j = false
    rw [inTrans_eq_root_done _ hwfF j hjF, hroot, hdone]
    rfl

/-- C4: when the outer callback and every nested callback return `nil`, every
`OnCommitted` callback registered at any nesting depth fires exactly once (the
event list is exactly the registration list, in order), after the whole run,
and no `OnRollbacked` callback fires. -/
theorem claim_C4 (body : Prog) (h : NoFail body) :
    (mTransaction mEx s0 none body).outcome = .ok none ∧
    (mTransaction mEx s0 none body).events =
      (commitRegs body).map Event.committed ∧
    ∀ u e, Event.rollbacked u e ∉ (mTransaction mEx s0 none body).events := by
  obtain ⟨h1, h2, -, -, -⟩ := nfOuter body h
  refine ⟨h1, h2, ?_⟩
  intro u e hmem
  rw [h2] at hmem
  obtain ⟨x, -, hbad⟩ := List.mem_map.mp hmem
  exact Event.noConfusion hbad

/-- A two-level `NoFail` program: commit callback `1` at the root scope,
then a nested `Transaction` registering commit callback `2`. -/
def bodyC4 : Prog :=
  .onCommitted 1 (.trans (.onCommitted 2 (.ret none)) (fun _ => .ret none))

/-- Witness for C4: both commit callbacks fire exactly once, in order. -/
theorem claim_C4_witness :
    (mTransaction mEx s0 none bodyC4).outcome = .ok none ∧
    (mTransaction mEx s0 none bodyC4).events =
      [.committed 1, .committed 2] := by
  obtain ⟨h1, h2, -⟩ := claim_C4 bodyC4
    (NoFail.onCommitted 1 (NoFail.trans (NoFail.onCommitted 2 NoFail.ret)
      NoFail.ret))
  exact ⟨h1, h2.trans rfl⟩

/-- Depth-indexed probe program: at each of `n + 1` nesting levels, query
`InTransaction` and retain the current context, the deepest level returning
`nil`. -/
def nestProbe : Nat → Prog
  | 0 => .inTransQ (.leak (.ret none))
  | n + 1 => .inTransQ (.leak (.trans (nestProbe n) (fun _ => .ret none)))

theorem noFail_nestProbe : ∀ n, NoFail (nestProbe n)
  | 0 => NoFail.inTransQ (NoFail.leak NoFail.ret)
  | n + 1 =>
    NoFail.inTransQ (NoFail.leak
      (NoFail.trans (noFail_nestProbe n) NoFail.ret))

theorem probeCount_nestProbe : ∀ n, probeCount (nestProbe n) = n + 1
  | 0 => rfl
  | n + 1 => by
    show probeCount (nestProbe n) + 0 + 1 = n + 1 + 1
    rw [probeCount_nestProbe n]

theorem leakCount_nestProbe : ∀ n, leakCount (nestProbe n) = n + 1
  | 0 => rfl
  | n + 1 => by
    show leakCount (nestProbe n) + 0 + 1 = n + 1 + 1
    rw [leakCount_nestProbe n]

/-- C5: for any nesting depth, `InTransaction` is `true` for the context at
every one of the `N + 1` levels while the run executes (the probes), `false`
on the original context before entry, and `false` on every one of the
`N + 1` retained contexts once the outermost call has returned. -/
theorem claim_C5 (N : Nat) :
    mInTransaction s0 none = false ∧
    (mTransaction mEx s0 none (nestProbe N)).probes =
      List.replicate (N + 1) true ∧
    (mTransaction mEx s0 none (nestProbe N)).leaked.length = N + 1 ∧
    (∀ x ∈ (mTransaction mEx s0 none (nestProbe N)).leaked,
      mInTransaction (mTransaction mEx s0 none (nestProbe N)).st x = false) ∧
    (mTransaction mEx s0 none (nestProbe N)).outcome = .ok none := by
  obtain ⟨h1, -, h3, h4, h5⟩ := nfOuter (nestProbe N) (noFail_nestProbe N)
  refine ⟨rfl, ?_, ?_, h5, h1⟩
  · rw [h3, probeCount_nestProbe N]
  · rw [h4, leakCount_nestProbe N]

/-- Witness for C5 at depth 2 (`nestProbe 1`): both probes answer `true`,
two contexts are retained, and the first retained context reports
`InTransaction` false after the outermost call returns. -/
theorem claim_C5_witness :
    mInTransaction s0 none = false ∧
    (mTransaction mEx s0 none (nestProbe 1)).probes = [true, true] ∧
    (mTransaction mEx s0 none (nestProbe 1)).leaked.length = 2 ∧
    mInTransaction (mTransaction mEx s0 none (nestProbe 1)).st
      ((mTransaction mEx s0 none (nestProbe 1)).leaked.headD none) = false ∧
    (mTransaction mEx s0 none (nestProbe 1)).outcome = .ok none := by
  obtain ⟨h1, h2, h3, h4, h5⟩ := claim_C5 1
  refine ⟨h1, h2, h3, ?_, h5⟩
  refine h4 _ ?_
  have hne : (mTransaction mEx s0 none (nestProbe 1)).leaked ≠ [] := by
    intro hz
    rw [hz] at h3
    exact Nat.noConfusion h3
  cases hl : (mTransaction mEx s0 none (nestProbe 1)).leaked with
  | nil => exact absurd hl hne
  | cons a l =>
    simp only [List.headD_cons]
    exact List.mem_cons_self a l

/-- Witness for C2 (registration present, non-error payload `"boom"`):
the cascade fires the rollback callback with the wrapped error and the
original panic is re-raised. -/
theorem claim_C2_witness :
    (mTransaction mEx s0 none (.onRollbacked 5 (.panicp (.pstr "boom")))).outcome
      = .panicked (.pstr "boom") ∧
    (mTransaction mEx s0 none (.onRollbacked 5 (.panicp (.pstr "boom")))).events
      = [.rollbacked 5 (.wrapped "boom")] := by
  obtain ⟨h1, -, h3⟩ := claim_C2 mEx s0 none
    (.onRollbacked 5 (.panicp (.pstr "boom"))) 0 (.pstr "boom") s1Ex 0
    (runProg mEx s1Ex (some 0) (.onRollbacked 5 (.panicp (.pstr "boom"))))
    rfl rfl rfl rfl rfl (by decide) (by decide) (by decide)
  refine ⟨h1, ?_⟩
  rw [h3 (by decide)]
  rfl

end MiniTx
